import Mathlib

/-!
Verification of the unique2net repository (DiVincenzo–Smolin two-qubit gate
network enumeration) against its natural-language specification.

The Python sources are shallowly embedded: two-qubit gates are naturals with
two set bits (LSB convention), networks are lists of gates, multigraphs are
lists of edges.  Machine integers pose no overflow issue (Python ints are
unbounded), so plain `Nat` is exact.
-/

/-! ### Bit operations (`unique2net.py` / `GraphQNet.py` class `bitop`) -/

/-- `getbit(num, k)`: the k-th bit of `num` (`(num & (1 << k)) >> k`). -/
def getbit (num k : ℕ) : ℕ := (num &&& (1 <<< k)) >>> k

/-- `swapbits(p1, p2, num)`: swap the `p1`-th and `p2`-th bits of `num`
(source computes `xor = b1^b2`, spreads it to the two positions, xors). -/
def swapbits (p1 p2 num : ℕ) : ℕ :=
  let b1 := getbit num p1
  let b2 := getbit num p2
  let x := b1 ^^^ b2
  let x2 := (x <<< p1) ||| (x <<< p2)
  num ^^^ x2

/-- Number of binary digits of `m`, computed with structural fuel so that
the kernel can evaluate it (`m ≤ fuel` in every use). -/
def numDigits : ℕ → ℕ → ℕ
  | 0, _ => 0
  | fuel + 1, m => if m = 0 then 0 else numDigits fuel (m / 2) + 1

/-- `len(bin(num)) - 2`: number of binary digits of `num` (1 for `num = 0`,
since `bin(0) = "0b0"`). -/
def binLength (num : ℕ) : ℕ := if num = 0 then 1 else numDigits num num

/-- `get_pos_ones(num)` (= `bitop.pos_of_ones`): ascending list of the
positions of the set bits of `num`, scanning positions `0 ..< binLength num`. -/
def getPosOnes (num : ℕ) : List ℕ :=
  (List.range (binLength num)).filter (fun i => num.testBit i)

/-- `bitop.pos_ones_toint(*args)`: sum of `2^a` over the argument list. -/
def posOnesToint (args : List ℕ) : ℕ := (args.map (fun a => 2 ^ a)).sum

/-- `shuffle_bits(num, permutation)` body: the loop
`num2 = num2 | (getbit(num, permutation[i]) << i)`, written as structural
recursion over the permutation list with the running position `i`. -/
def shuffleAux (num : ℕ) : List ℕ → ℕ → ℕ
  | [], _ => 0
  | pos :: rest, i => (getbit num pos <<< i) ||| shuffleAux num rest (i + 1)

/-- `shuffle_bits(num, permutation)`: bit `i` of the result is bit
`permutation[i]` of `num`. -/
def shuffle (num : ℕ) (p : List ℕ) : ℕ := shuffleAux num p 0

/-- Number of set bits, in the repository's own idiom
(`bin(a).count('1')` or `len(get_pos_ones(a))`). -/
def countOnes (num : ℕ) : ℕ := (getPosOnes num).length

/-! ### Structural permutation enumeration

`itertools.permutations` (and Python's set/list machinery around it) yields
every ordering of its input, duplicates included.  `List.permutations` is not
structurally recursive, so the kernel cannot evaluate it on literals; the
insertion-based enumeration below is, and produces the same orderings (in a
different sequence — every property proved in this file is invariant under
that order). -/

/-- All ways to insert `x` into one position of a list. -/
def insertAll (x : ℕ) : List ℕ → List (List ℕ)
  | [] => [[x]]
  | y :: ys => (x :: y :: ys) :: (insertAll x ys).map (fun zs => y :: zs)

/-- All orderings of a list (`n!` of them, duplicates counted). -/
def permsList : List ℕ → List (List ℕ)
  | [] => [[]]
  | x :: xs => (permsList xs).flatMap (insertAll x)

/-! ### Orbit generators (`unique2net.py`) -/

/-- `equiv_time_reversal(gate_net)`: the reversed network `gate_net[::-1]`. -/
def equivTimeReversal (net : List ℕ) : List ℕ := net.reverse

/-- `equiv_bit_permutations(gate_net, nqubit)`: the set of images of the
network under every permutation of `range(nqubit)`, with the network itself
removed (`result.remove(gate_net)`; for the valid networks this code receives,
the identity permutation puts `gate_net` in the set, so `remove` = `erase`). -/
def equivBitPermutations (net : List ℕ) (n : ℕ) : Finset (List ℕ) :=
  ((permsList (List.range n)).map (fun p => net.map (fun g => shuffle g p))).toFinset.erase
    net

/-- `equiv_conjugation_by_swapping(gate_net)`: for each `j` indexing the slice
`gate_net[1:-1]`, when `gate_net[j] == gate_net[j+2]` replace position `j+1`
by its `swapbits` image under the two one-positions of the flanking gate
(`swapbits(*get_pos_ones(g1), g)`, which assumes the flanking gate has exactly
two set bits), keeping the variant only when it differs from the input. -/
def equivConjugationBySwapping (net : List ℕ) : Finset (List ℕ) :=
  ((List.range (net.length - 2)).filterMap (fun j =>
    let g1 := net.getD j 0
    let g2 := net.getD (j + 2) 0
    if g1 = g2 then
      let poss := getPosOnes g1
      let mnet := net.set (j + 1)
        (swapbits (poss.getD 0 0) (poss.getD 1 0) (net.getD (j + 1) 0))
      if mnet ≠ net then some mnet else none
    else none)).toFinset

/-- `equiv_set_net(net, nqubit, **kwargs)`.  The Python accumulator `S_equiv`
is a heterogeneous list: tuples (networks) and — through the slip
`S_equiv += [*equiv_time_reversal(net)]`, which splats the reversed tuple —
bare gate integers.  Elements are therefore modelled as `ℕ ⊕ List ℕ`
(`Sum.inl` = a Python `int`, `Sum.inr` = a Python tuple); a Python `int` never
equals a tuple, matching the disjointness of the two summands. -/
def equivSetNet (net : List ℕ) (n : ℕ)
    (bitPerm conjSwap timeRev ident : Bool) : Finset (ℕ ⊕ List ℕ) :=
  (if ident then {Sum.inr net} else ∅) ∪
    (if bitPerm then (equivBitPermutations net n).image Sum.inr else ∅) ∪
    (if conjSwap then (equivConjugationBySwapping net).image Sum.inr else ∅) ∪
    (if timeRev then ((equivTimeReversal net).map Sum.inl).toFinset else ∅)

/-! ### Run validator (`__iseqiv_occurrence` / `gates_elimination.eliminate3`) -/

/-- Loop body of `__iseqiv_occurrence`: state is the gate currently counted
and its run length; entering an element updates the count, then returns true
the moment the count reaches 4. -/
def occAux : ℕ → ℕ → List ℕ → Bool
  | _, _, [] => false
  | gate, count, g :: rest =>
    let count2 := if g = gate then count + 1 else 1
    if count2 = 4 then true else occAux g count2 rest

/-- `__iseqiv_occurrence(net)`: scan `net` left to right starting from
`count, gate = 0, net[0]`.  (Python raises IndexError on an empty tuple;
the claim only concerns non-empty networks, the `[]` branch is a dummy.) -/
def iseqivOccurrence (net : List ℕ) : Bool :=
  match net with
  | [] => false
  | g :: _ => occAux g 0 net

/-- `gates_elimination.eliminate3(gate_list)`: marks (and then filters out)
the networks whose scan hits a fourth consecutive identical gate — the scan
(`count, gate = 0, net[0]`, `count > 3` check) is the same computation as
`__iseqiv_occurrence`. -/
def eliminate3 (gate_list : List (List ℕ)) : List (List ℕ) :=
  gate_list.filter (fun net => !(iseqivOccurrence net))

/-! ### Graph layer (`list_non_iso_graphs` and helpers)

Multigraphs are edge lists (`networkx.MultiGraph` built from a list of
2-tuples keeps one copy per insertion); nodes are `0 ..< nqubit`. -/

/-- Python exception outcomes relevant to the enumeration entry points.
`invalidConfiguration` models the spec's `InvalidConfigurationError`; no code
in the repository raises it — it exists so the claim can be stated. -/
inductive PyErr where
  | indexError
  | nameError
  | invalidConfiguration
  deriving DecidableEq, Repr

/-- `cphases = list(combinations(range(nqubit), 2))` in itertools order. -/
def cphases (n : ℕ) : List (ℕ × ℕ) :=
  (List.range n).flatMap (fun i => ((List.range n).filter (fun j => i < j)).map (fun j => (i, j)))

/-- Number of parallel edges between `u` and `v` (the edge list stores every
copy of an undirected edge with the same orientation, so `L.count(edge)`
counts multiplicity; we compare both orientations to be orientation-robust). -/
def edgeCount (G : List (ℕ × ℕ)) (u v : ℕ) : ℕ :=
  G.countP (fun e => decide ((e.1 = u ∧ e.2 = v) ∨ (e.1 = v ∧ e.2 = u)))

/-- `nx.is_isomorphic(G, H)` for the multigraphs of this pipeline: some
relabelling of the nodes `0 ..< n` matches the edge multiplicities of `G`
with those of `H` for every node pair.  (These graphs carry no isolated
nodes outside `0 ..< n`, so a node bijection is exactly such a relabelling.) -/
def isoUnlabeled (n : ℕ) (G H : List (ℕ × ℕ)) : Bool :=
  (permsList (List.range n)).any (fun p =>
    (cphases n).all (fun e =>
      edgeCount G e.1 e.2 == edgeCount H (p.getD e.1 0) (p.getD e.2 0)))

/-- `__is_isomorphic_to(G_test, G_list)`: `G_test` is isomorphic to some
member of the list (`nx.is_isomorphic(G, G_test)` for `G` in the list). -/
def isIsomorphicToAny (n : ℕ) (G_test : List (ℕ × ℕ)) (G_list : List (List (ℕ × ℕ))) : Bool :=
  G_list.any (fun G => isoUnlabeled n G G_test)

/-- `__more_three_multiedges(G)`: some edge occurs more than 3 times. -/
def moreThreeMultiedges (G : List (ℕ × ℕ)) : Bool :=
  G.any (fun e => decide (3 < G.count e))

/-- Inner loop of `list_non_iso_graphs`: `for cphase in cphases:` extend
`G_old` by one edge, keep the candidate when it has no quadruple edge and is
isomorphic to no graph accepted so far at this depth. -/
def addCandidates (n : ℕ) (G_old : List (ℕ × ℕ)) :
    List (ℕ × ℕ) → List (List (ℕ × ℕ)) → List (List (ℕ × ℕ))
  | [], acc => acc
  | cp :: rest, acc =>
    let cand := G_old ++ [cp]
    if moreThreeMultiedges cand = false ∧ isIsomorphicToAny n cand acc = false then
      addCandidates n G_old rest (acc ++ [cand])
    else
      addCandidates n G_old rest acc

/-- Outer loop of one depth iteration: `for G_old in GNIsom[depth-1]:`. -/
def stepGraphs (n : ℕ) : List (List (ℕ × ℕ)) → List (List (ℕ × ℕ)) → List (List (ℕ × ℕ))
  | [], acc => acc
  | g :: rest, acc => stepGraphs n rest (addCandidates n g (cphases n) acc)

/-- `k` depth iterations starting from the depth-1 list. -/
def iterGraphs (n : ℕ) (init : List (List (ℕ × ℕ))) : ℕ → List (List (ℕ × ℕ))
  | 0 => init
  | k + 1 => stepGraphs n (iterGraphs n init k) []

/-- `list_non_iso_graphs(nqubit, net_depth)` with default kwargs (no resume
file; drawing/saving are external side effects and not modelled).
With `nqubit < 2`, `cphases` is empty and `GNIsom[1] = [MultiGraph([cphases[0]])]`
raises IndexError.  With `net_depth < 2`, `range(2, net_depth+1)` is empty, the
loop variable `depth` is never bound, and `LNIG = GNIsom[depth]` raises
NameError.  Otherwise the final `GNIsom[net_depth]` is returned. -/
def listNonIsoGraphs (n d : ℕ) : Except PyErr (List (List (ℕ × ℕ))) :=
  match cphases n with
  | [] => .error .indexError
  | c0 :: _ =>
    if d < 2 then .error .nameError
    else .ok (iterGraphs n [[c0]] (d - 1))

/-! ### Ordering layer (`__edges_to_net`, `__edges_to_nets_uperm`, conjugation
elimination, `unique2net`) -/

/-- `__edges_to_net(edges)`: gate `2**a + 2**b` per edge `(a, b)`. -/
def edgesToNet (edges : List (ℕ × ℕ)) : List ℕ :=
  edges.map (fun e => 2 ^ e.1 + 2 ^ e.2)

/-- `__edges_to_nets_uperm(G, nqubit)`: list all orderings
(`GL = list(permutations(net))`), then keep `GL[i]` iff no later `GL[j]` has
a bit-permutation orbit (each taken without its own base point) meeting that
of `GL[i]`.  (`permsList` enumerates the same orderings as
`itertools.permutations` in a different sequence; every property proved below
is invariant under the candidate order.) -/
def edgesToNetsUperm (edges : List (ℕ × ℕ)) (n : ℕ) : List (List ℕ) :=
  let gl := permsList (edgesToNet edges)
  (gl.enum.filter (fun ix =>
    !(gl.enum.any (fun jy =>
      decide (ix.1 < jy.1) &&
        decide ((equivBitPermutations ix.2 n ∩ equivBitPermutations jy.2 n).Nonempty))))).map
    Prod.snd

/-- `__net_to_graph(net, 'multigraph')`: one edge `get_pos_ones(gate)` per
gate (for a two-bit gate these are its two one-positions, in order). -/
def netToEdges (net : List ℕ) : List (ℕ × ℕ) :=
  net.map (fun g => ((getPosOnes g).getD 0 0, (getPosOnes g).getD 1 0))

/-- `is_equiv_iso_conj(net, non_iso_graphs)`: count the members of
`non_iso_graphs` isomorphic to the graph of `net`; true iff the count
exceeds 2 (the early `return True` inside the loop fires at the same
threshold). -/
def isEquivIsoConj (n : ℕ) (net : List ℕ) (LNIG : List (List (ℕ × ℕ))) : Bool :=
  decide (2 < LNIG.countP (fun G => isoUnlabeled n G (netToEdges net)))

/-- `__net_equiv_conj(net, i)`: the conjugation-by-swap variants of `net`
keyed by its index, or Python `False` (here `none`) when there are none. -/
def netEquivConj (net : List ℕ) (i : ℕ) : Option (ℕ × Finset (List ℕ)) :=
  let s := equivConjugationBySwapping net
  if s.Nonempty then some (i, s) else none

/-- `__toel_conj(conj_dnets, LNIG)`: the stored index when some variant is
`is_equiv_iso_conj`-equivalent, else Python `False` (here `none`). -/
def toelConj (n : ℕ) (i : ℕ) (nets : Finset (List ℕ)) (LNIG : List (List (ℕ × ℕ))) :
    Option ℕ :=
  if ∃ net ∈ nets, isEquivIsoConj n net LNIG = true then some i else none

/-- `unique2net(nqubit, net_depth)` with default kwargs.  After the graph
enumeration: order each graph (`Pool.map` keeps list order; the flattening
`Nets.extend`), collect conjugation-variant records, compute the indices to
eliminate, then execute `for i in toel: if i: Nets[i] = False` followed by
`[net for net in Nets if net]` — note Python truthiness: index `0` and the
empty tuple are falsy. -/
def unique2netModel (n d : ℕ) : Except PyErr (List (List ℕ)) :=
  match listNonIsoGraphs n d with
  | .error e => .error e
  | .ok LNIG =>
    let Nets := LNIG.flatMap (fun G => edgesToNetsUperm G n)
    let netsConj := Nets.enum.filterMap (fun ix => netEquivConj ix.2 ix.1)
    let toel := netsConj.map (fun is => toelConj n is.1 is.2 LNIG)
    let marked := (toel.filterMap id).filter (fun i => i != 0)
    .ok ((Nets.enum.filter (fun ix => !(marked.contains ix.1) && !(ix.2.isEmpty))).map
      Prod.snd)

/-! ### Labeled-multigraph views (`GraphQNet.py`) and the spec's
isomorphism-with-ordering -/

/-- Positions (edge-order labels) at which the network joins the node pair
`{u, v}`: `GraphQNet.set_graph` gives edge `k` the two one-positions of
`net[k]` and attribute `ordering = k`, so for two-bit gates edge `k` joins
`{u, v}` iff `net[k] = 2^u + 2^v` with `u ≠ v`.  The list is ascending. -/
def pairLabels (net : List ℕ) (u v : ℕ) : List ℕ :=
  (List.range net.length).filter (fun k =>
    decide (net.getD k 0 = 2 ^ u + 2 ^ v) && decide (u ≠ v))

/-- The spec's isomorphism-with-ordering: a qubit relabelling under which,
for every node pair, the (already sorted) list of edge-position labels of
`a` equals that of `b` at the image pair. -/
def isomorphicWithOrdering (n : ℕ) (a b : List ℕ) : Prop :=
  ∃ p ∈ permsList (List.range n), ∀ u < n, ∀ v < n,
    pairLabels a u v = pairLabels b (p.getD u 0) (p.getD v 0)

/-- `GraphQNet.is_isomorphic_to`: `nx.is_isomorphic(self.graph, GQN.graph,
edge_match=__compare_edges)`.  VF2 finds a node bijection preserving, for
every node pair, the number of parallel edges; the repository's
`__compare_edges` then compares only `G1[0]['ordering']` — the label of the
edge stored under multigraph key 0, i.e. the first-inserted (lowest)
position label — not the whole label list. -/
def isIsomorphicTo (n : ℕ) (a b : List ℕ) : Prop :=
  ∃ p ∈ permsList (List.range n), ∀ u < n, ∀ v < n,
    (pairLabels a u v).length = (pairLabels b (p.getD u 0) (p.getD v 0)).length ∧
    (pairLabels a u v).head? = (pairLabels b (p.getD u 0) (p.getD v 0)).head?

instance isomorphicWithOrderingDec (n : ℕ) (a b : List ℕ) :
    Decidable (isomorphicWithOrdering n a b) := by
  unfold isomorphicWithOrdering
  infer_instance

instance isIsomorphicToDec (n : ℕ) (a b : List ℕ) :
    Decidable (isIsomorphicTo n a b) := by
  unfold isIsomorphicTo
  infer_instance

/-- Decidable equality for `Except` results, so concrete runs of the
pipeline can be checked by `decide`. -/
instance exceptDecEq {ε α : Type} [DecidableEq ε] [DecidableEq α] :
    DecidableEq (Except ε α) := fun a b =>
  match a, b with
  | .ok x, .ok y => decidable_of_iff (x = y) (by simp)
  | .error e, .error f => decidable_of_iff (e = f) (by simp)
  | .ok _, .error _ => isFalse (by simp)
  | .error _, .ok _ => isFalse (by simp)

/-! ### Spec-side well-formedness predicates -/

/-- A two-qubit gate: a mask with exactly two set bits. -/
def IsGate (g : ℕ) : Prop := ∃ u v : ℕ, u < v ∧ g = 2 ^ u + 2 ^ v

/-- A two-qubit gate on `n` qubits. -/
def IsGateOn (n g : ℕ) : Prop := ∃ u v : ℕ, u < v ∧ v < n ∧ g = 2 ^ u + 2 ^ v

/-- A network all of whose gates are two-qubit gates on `n` qubits. -/
def ValidNet (n : ℕ) (net : List ℕ) : Prop := ∀ g ∈ net, IsGateOn n g

/-- An edge list whose edges are ordered pairs inside `0 ..< n`. -/
def ValidGraph (n : ℕ) (G : List (ℕ × ℕ)) : Prop := ∀ e ∈ G, e.1 < e.2 ∧ e.2 < n

/-- The transposition of `x` and `r` as a function. -/
def swapFun (x r i : ℕ) : ℕ := if i = x then r else if i = r then x else i

/-- The transposition of `x` and `r` as a permutation list on `range n`. -/
def swapList (n x r : ℕ) : List ℕ := (List.range n).map (swapFun x r)

/-- The inverse of a permutation list `p` of `range n`: position `i` holds
the index of `i` in `p`. -/
def invPerm (p : List ℕ) : List ℕ := (List.range p.length).map (fun i => p.indexOf i)

/-! ### Basic bit lemmas -/

theorem getbit_eq_testBit (num k : ℕ) :
    getbit num k = if num.testBit k then 1 else 0 := by
  have h1 : (1 : ℕ) <<< k = 2 ^ k := by rw [Nat.shiftLeft_eq, one_mul]
  unfold getbit
  rw [h1, Nat.and_two_pow]
  rcases h : num.testBit k with _ | _
  · simp [h]
  · simp only [Bool.toNat_true, one_mul, if_pos]
    rw [Nat.shiftRight_eq_div_pow]
    exact Nat.div_self (Nat.pos_pow_of_pos k (by norm_num))

theorem testBit_two_pow_add_two_pow_of_lt {x y : ℕ} (hxy : x < y) (k : ℕ) :
    (2 ^ x + 2 ^ y).testBit k = (decide (k = x) || decide (k = y)) := by
  rw [Nat.add_comm]
  rcases lt_trichotomy k y with hk | hk | hk
  · rw [Nat.testBit_two_pow_add_gt hk]
    have : ¬ k = y := by omega
    simp [Nat.testBit_two_pow, this, eq_comm]
  · subst hk
    rw [Nat.testBit_two_pow_add_eq]
    have hxk : x ≠ k := by omega
    simp [Nat.testBit_two_pow_of_ne hxk, hxy.ne]
  · have hlt : 2 ^ y + 2 ^ x < 2 ^ k := by
      have h1 : 2 ^ x < 2 ^ y := Nat.pow_lt_pow_right (by norm_num) hxy
      have h2 : 2 ^ y + 2 ^ y ≤ 2 ^ k := by
        have : 2 ^ (y + 1) ≤ 2 ^ k := Nat.pow_le_pow_right (by norm_num) hk
        simpa [Nat.pow_succ, Nat.mul_two] using this
      omega
    rw [Nat.testBit_lt_two_pow hlt]
    have h1 : ¬ k = x := by omega
    have h2 : ¬ k = y := by omega
    simp [h1, h2]

theorem testBit_two_pow_add_two_pow {x y : ℕ} (hxy : x ≠ y) (k : ℕ) :
    (2 ^ x + 2 ^ y).testBit k = (decide (k = x) || decide (k = y)) := by
  rcases lt_or_gt_of_ne hxy with h | h
  · exact testBit_two_pow_add_two_pow_of_lt h k
  · rw [Nat.add_comm, testBit_two_pow_add_two_pow_of_lt h k, Bool.or_comm]

theorem two_pow_add_two_pow_inj {x y u v : ℕ} (hxy : x ≠ y) (huv : u ≠ v)
    (h : 2 ^ x + 2 ^ y = 2 ^ u + 2 ^ v) : (x = u ∧ y = v) ∨ (x = v ∧ y = u) := by
  have hx : (2 ^ x + 2 ^ y).testBit x = true := by
    rw [testBit_two_pow_add_two_pow hxy]; simp
  have hy : (2 ^ x + 2 ^ y).testBit y = true := by
    rw [testBit_two_pow_add_two_pow hxy]; simp
  rw [h, testBit_two_pow_add_two_pow huv] at hx hy
  have hxuv : x = u ∨ x = v := by simpa using hx
  have hyuv : y = u ∨ y = v := by simpa using hy
  rcases hxuv with h1 | h1 <;> rcases hyuv with h2 | h2
  · exact absurd (h1.trans h2.symm) hxy
  · exact Or.inl ⟨h1, h2⟩
  · exact Or.inr ⟨h1, h2⟩
  · exact absurd (h1.trans h2.symm) hxy

theorem numDigits_zero (fuel : ℕ) : numDigits fuel 0 = 0 := by
  cases fuel <;> simp [numDigits]

theorem lt_two_pow_numDigits : ∀ fuel m, m ≤ fuel → m < 2 ^ numDigits fuel m := by
  intro fuel
  induction fuel with
  | zero => intro m hm; interval_cases m; simp [numDigits]
  | succ fuel ih =>
    intro m hm
    unfold numDigits
    rcases Decidable.em (m = 0) with h0 | h0
    · simp [h0]
    · rw [if_neg h0]
      have hrec := ih (m / 2) (by omega)
      have : 2 ^ (numDigits fuel (m / 2) + 1) = 2 * 2 ^ numDigits fuel (m / 2) := by
        rw [Nat.pow_succ, Nat.mul_comm]
      omega

theorem two_pow_pred_le_numDigits : ∀ fuel m, m ≤ fuel → m ≠ 0 →
    1 ≤ numDigits fuel m ∧ 2 ^ (numDigits fuel m - 1) ≤ m := by
  intro fuel
  induction fuel with
  | zero => intro m hm h0; omega
  | succ fuel ih =>
    intro m hm h0
    unfold numDigits
    rw [if_neg h0]
    refine ⟨by omega, ?_⟩
    rcases Decidable.em (m / 2 = 0) with h2 | h2
    · rw [h2, numDigits_zero]
      simpa using Nat.one_le_iff_ne_zero.mpr h0
    · obtain ⟨h1, hrec⟩ := ih (m / 2) (by omega) h2
      have heq : numDigits fuel (m / 2) + 1 - 1 = (numDigits fuel (m / 2) - 1) + 1 := by
        omega
      rw [heq, Nat.pow_succ]
      have : 2 ^ (numDigits fuel (m / 2) - 1) * 2 ≤ (m / 2) * 2 := by
        exact Nat.mul_le_mul_right 2 hrec
      omega

theorem lt_two_pow_binLength (num : ℕ) : num < 2 ^ binLength num := by
  unfold binLength
  rcases Decidable.em (num = 0) with h0 | h0
  · simp [h0]
  · rw [if_neg h0]
    exact lt_two_pow_numDigits num num le_rfl

theorem binLength_two_pow_add_two_pow {x y : ℕ} (hxy : x < y) :
    binLength (2 ^ x + 2 ^ y) = y + 1 := by
  have h0 : 2 ^ x + 2 ^ y ≠ 0 := by positivity
  have hlow : 2 ^ y ≤ 2 ^ x + 2 ^ y := Nat.le_add_left _ _
  have hhigh : 2 ^ x + 2 ^ y < 2 ^ (y + 1) := by
    have h1 : 2 ^ x < 2 ^ y := Nat.pow_lt_pow_right (by norm_num) hxy
    have h2 : 2 ^ (y + 1) = 2 ^ y + 2 ^ y := by rw [Nat.pow_succ, Nat.mul_two]
    omega
  unfold binLength
  rw [if_neg h0]
  have hA := lt_two_pow_numDigits (2 ^ x + 2 ^ y) (2 ^ x + 2 ^ y) le_rfl
  obtain ⟨h1, hB⟩ := two_pow_pred_le_numDigits (2 ^ x + 2 ^ y) (2 ^ x + 2 ^ y) le_rfl h0
  have hai : y < numDigits (2 ^ x + 2 ^ y) (2 ^ x + 2 ^ y) := by
    by_contra hcon
    have hmono : 2 ^ numDigits (2 ^ x + 2 ^ y) (2 ^ x + 2 ^ y) ≤ 2 ^ y :=
      Nat.pow_le_pow_right (by norm_num) (by omega)
    omega
  have hbi : numDigits (2 ^ x + 2 ^ y) (2 ^ x + 2 ^ y) - 1 < y + 1 := by
    by_contra hcon
    have hmono : 2 ^ (y + 1) ≤ 2 ^ (numDigits (2 ^ x + 2 ^ y) (2 ^ x + 2 ^ y) - 1) :=
      Nat.pow_le_pow_right (by norm_num) (by omega)
    omega
  omega

theorem testBit_false_of_binLength_le {num k : ℕ} (h : binLength num ≤ k) :
    num.testBit k = false := by
  apply Nat.testBit_lt_two_pow
  calc num < 2 ^ binLength num := lt_two_pow_binLength num
    _ ≤ 2 ^ k := Nat.pow_le_pow_right (by norm_num) h

theorem mem_getPosOnes {num k : ℕ} : k ∈ getPosOnes num ↔ num.testBit k = true := by
  unfold getPosOnes
  rw [List.mem_filter, List.mem_range]
  constructor
  · rintro ⟨-, h⟩; simpa using h
  · intro h
    refine ⟨?_, by simpa using h⟩
    by_contra hk
    rw [testBit_false_of_binLength_le (by omega)] at h
    exact Bool.false_ne_true h

theorem getPosOnes_sorted (num : ℕ) : (getPosOnes num).Sorted (· < ·) :=
  (List.sorted_lt_range _).filter _

theorem filter_range_eq_single {p : ℕ} (f : ℕ → Bool)
    (hf : ∀ i, f i = decide (i = p)) :
    ∀ m, p < m → (List.range m).filter f = [p] := by
  intro m
  induction m with
  | zero => omega
  | succ m ih =>
    intro hp
    rw [List.range_succ, List.filter_append]
    rcases Nat.lt_or_ge p m with hm | hm
    · rw [ih hm]
      have hfm : f m = false := by rw [hf]; simp; omega
      simp [hfm]
    · have hpm : p = m := by omega
      subst hpm
      have h1 : f p = true := by rw [hf]; simp
      have h2 : (List.range p).filter f = [] := by
        apply List.filter_eq_nil_iff.mpr
        intro a ha
        rw [List.mem_range] at ha
        rw [hf]; simp; omega
      simp [h1, h2]

theorem filter_range_eq_pair {p q : ℕ} (hpq : p < q) (f : ℕ → Bool)
    (hf : ∀ i, f i = (decide (i = p) || decide (i = q))) :
    ∀ m, q < m → (List.range m).filter f = [p, q] := by
  intro m
  induction m with
  | zero => omega
  | succ m ih =>
    intro hq
    rw [List.range_succ, List.filter_append]
    rcases Nat.lt_or_ge q m with hm | hm
    · rw [ih hm]
      have hfm : f m = false := by rw [hf]; simp; omega
      simp [hfm]
    · have hqm : q = m := by omega
      subst hqm
      have hfq : f q = true := by rw [hf]; simp
      have hsingle : (List.range q).filter f = [p] := by
        have hcongr : (List.range q).filter f
            = (List.range q).filter (fun i => decide (i = p)) := by
          apply List.filter_congr
          intro a ha
          rw [List.mem_range] at ha
          rw [hf]
          have : ¬ a = q := by omega
          simp [this]
        rw [hcongr]
        exact filter_range_eq_single _ (fun i => rfl) q hpq
      simp [hsingle, hfq]

/-- `get_pos_ones` of a two-bit mask `2^p + 2^q` (`p < q`) is `[p, q]`. -/
theorem getPosOnes_two_pow_add_two_pow {p q : ℕ} (hpq : p < q) :
    getPosOnes (2 ^ p + 2 ^ q) = [p, q] := by
  unfold getPosOnes
  rw [binLength_two_pow_add_two_pow hpq]
  exact filter_range_eq_pair hpq _
    (fun i => testBit_two_pow_add_two_pow_of_lt hpq i) _ (by omega)

theorem posOnesToint_pair (p q : ℕ) : posOnesToint [p, q] = 2 ^ p + 2 ^ q := by
  simp [posOnesToint]

/-- A number whose `get_pos_ones` list has length 2 is a two-bit mask, and
`get_pos_ones` exhibits its two bit positions in ascending order. -/
theorem two_bit_decomp {g : ℕ} (h : (getPosOnes g).length = 2) :
    ∃ a b : ℕ, a < b ∧ getPosOnes g = [a, b] ∧ g = 2 ^ a + 2 ^ b := by
  rcases hl : getPosOnes g with - | ⟨a, - | ⟨b, tail⟩⟩
  · rw [hl] at h; simp at h
  · rw [hl] at h; simp at h
  · rw [hl] at h
    have htail : tail = [] := by
      have := h
      simp only [List.length_cons] at this
      exact List.length_eq_zero.mp (by omega)
    subst htail
    have hsorted := getPosOnes_sorted g
    rw [hl] at hsorted
    have hab : a < b := by
      rcases hsorted with - | ⟨hrel, -⟩
      exact hrel b (by simp)
    refine ⟨a, b, hab, rfl, ?_⟩
    have hta : g.testBit a = true := mem_getPosOnes.mp (by rw [hl]; simp)
    have htb : g.testBit b = true := mem_getPosOnes.mp (by rw [hl]; simp)
    apply Nat.eq_of_testBit_eq
    intro k
    rw [testBit_two_pow_add_two_pow (by omega : a ≠ b)]
    rcases hk : g.testBit k with - | -
    · rcases Decidable.em (k = a) with ha | ha
      · subst ha; rw [hta] at hk; exact absurd hk (by simp)
      · rcases Decidable.em (k = b) with hb | hb
        · subst hb; rw [htb] at hk; exact absurd hk (by simp)
        · simp [ha, hb]
    · have hmem : k ∈ getPosOnes g := mem_getPosOnes.mpr hk
      rw [hl] at hmem
      simp only [List.mem_cons, List.not_mem_nil, or_false] at hmem
      rcases hmem with h1 | h1 <;> simp [h1]

/-- C9: `from_positions` and `positions_of_ones` are exact inverses on
two-bit inputs: `get_pos_ones(pos_ones_toint(p, q)) = (p, q)` for `p < q`,
and `pos_ones_toint(*get_pos_ones(g)) = g` for every `g` with exactly two
set bits. -/
theorem claimC9 :
    (∀ p q : ℕ, p < q → getPosOnes (posOnesToint [p, q]) = [p, q]) ∧
    (∀ g : ℕ, (getPosOnes g).length = 2 → posOnesToint (getPosOnes g) = g) := by
  constructor
  · intro p q hpq
    rw [posOnesToint_pair]
    exact getPosOnes_two_pow_add_two_pow hpq
  · intro g hg
    obtain ⟨a, b, hab, hl, hg2⟩ := two_bit_decomp hg
    rw [hl, posOnesToint_pair, hg2]

/-- C9 witness: the inverse laws evaluated at `p = 0, q = 1` and `g = 5`. -/
theorem claimC9_witness :
    getPosOnes (posOnesToint [0, 1]) = [0, 1] ∧ posOnesToint (getPosOnes 5) = 5 :=
  ⟨claimC9.1 0 1 (by norm_num), claimC9.2 5 (by decide)⟩

/-! ### C4: the run validator -/

theorem replicate_four_prefix_cons {h g : ℕ} {rest : List ℕ} :
    List.replicate 4 h <+: g :: rest ↔ h = g ∧ List.replicate 3 h <+: rest := by
  rw [List.replicate_succ, List.cons_prefix_cons]

theorem occAux_iff_run : ∀ (l : List ℕ) (gate count : ℕ), count ≤ 3 →
    (occAux gate count l = true ↔
      (1 ≤ count ∧ List.replicate (4 - count) gate <+: l) ∨
        ∃ g, List.replicate 4 g <:+: l) := by
  intro l
  induction l with
  | nil =>
    intro gate count hc
    unfold occAux
    constructor
    · intro h; exact absurd h (by simp)
    · rintro (⟨-, hpre⟩ | ⟨g, hinf⟩)
      · have := hpre.length_le
        simp only [List.length_replicate, List.length_nil] at this
        omega
      · have := hinf.length_le
        simp only [List.length_replicate, List.length_nil] at this
        omega
  | cons g rest ih =>
    intro gate count hc
    show (if (if g = gate then count + 1 else 1) = 4 then true
        else occAux g (if g = gate then count + 1 else 1) rest) = true ↔ _
    rcases Decidable.em (g = gate) with hg | hg
    · rw [if_pos hg, ← hg]
      rcases Decidable.em (count + 1 = 4) with h4 | h4
      · rw [if_pos h4]
        have hcount : count = 3 := by omega
        subst hcount
        simp only [true_iff]
        left
        refine ⟨by omega, ?_⟩
        show List.replicate 1 g <+: g :: rest
        rw [List.replicate_succ, List.replicate_zero]
        exact ⟨rest, rfl⟩
      · rw [if_neg h4]
        rw [ih g (count + 1) (by omega)]
        have h43 : 4 - (count + 1) = 3 - count := by omega
        rw [h43]
        constructor
        · rintro (⟨-, hpre⟩ | hinf)
          · rcases Nat.eq_zero_or_pos count with h0 | h0
            · subst h0
              right
              exact ⟨g, List.infix_cons_iff.mpr (Or.inl
                (replicate_four_prefix_cons.mpr ⟨rfl, by simpa using hpre⟩))⟩
            · left
              refine ⟨h0, ?_⟩
              have : (4 : ℕ) - count = (3 - count) + 1 := by omega
              rw [this, List.replicate_succ]
              exact List.cons_prefix_cons.mpr ⟨rfl, hpre⟩
          · right
            obtain ⟨h, hinf⟩ := hinf
            exact ⟨h, List.infix_cons hinf⟩
        · rintro (⟨h1, hpre⟩ | hinf)
          · left
            refine ⟨by omega, ?_⟩
            have : (4 : ℕ) - count = (3 - count) + 1 := by omega
            rw [this, List.replicate_succ] at hpre
            exact (List.cons_prefix_cons.mp hpre).2
          · obtain ⟨h, hinf⟩ := hinf
            rcases List.infix_cons_iff.mp hinf with hpre | hinf2
            · obtain ⟨heq, hpre3⟩ := replicate_four_prefix_cons.mp hpre
              rw [heq] at hpre3
              left
              refine ⟨by omega, ?_⟩
              calc List.replicate (3 - count) g <+: List.replicate 3 g :=
                    ⟨List.replicate count g, by
                      rw [← List.replicate_add]
                      congr 1
                      omega⟩
                _ <+: rest := hpre3
            · right; exact ⟨h, hinf2⟩
    · simp only [if_neg hg]
      rw [if_neg (by omega : ¬ (1 : ℕ) = 4)]
      rw [ih g 1 (by omega)]
      constructor
      · rintro (⟨-, hpre⟩ | hinf)
        · right
          exact ⟨g, List.infix_cons_iff.mpr (Or.inl
            (replicate_four_prefix_cons.mpr ⟨rfl, by simpa using hpre⟩))⟩
        · right
          obtain ⟨h, hinf⟩ := hinf
          exact ⟨h, List.infix_cons hinf⟩
      · rintro (⟨h1, hpre⟩ | hinf)
        · exfalso
          have : (4 : ℕ) - count = (3 - count) + 1 := by omega
          rw [this, List.replicate_succ] at hpre
          exact hg ((List.cons_prefix_cons.mp hpre).1).symm
        · obtain ⟨h, hinf⟩ := hinf
          rcases List.infix_cons_iff.mp hinf with hpre | hinf2
          · rcases replicate_four_prefix_cons.mp hpre with ⟨rfl, hpre3⟩
            left
            exact ⟨by omega, by simpa using hpre3⟩
          · right; exact ⟨h, hinf2⟩

/-- C4: on every non-empty network, the run validator `__iseqiv_occurrence`
(the same scan as `eliminate3`) returns true iff the network contains at
least 4 consecutive identical gate values. -/
theorem claimC4 (net : List ℕ) (hne : net ≠ []) :
    iseqivOccurrence net = true ↔ ∃ g, List.replicate 4 g <:+: net := by
  rcases net with - | ⟨g, rest⟩
  · exact absurd rfl hne
  · show occAux g 0 (g :: rest) = true ↔ _
    rw [occAux_iff_run (g :: rest) g 0 (by omega)]
    constructor
    · rintro (⟨h1, -⟩ | h) 
      · omega
      · exact h
    · intro h; exact Or.inr h

/-- C4 witness: the validator returns true on the concrete network
`(3, 3, 3, 3)`. -/
theorem claimC4_witness : iseqivOccurrence [3, 3, 3, 3] = true :=
  (claimC4 [3, 3, 3, 3] (by decide)).mpr ⟨3, [], [], rfl⟩

/-! ### C10: `shuffle_bits` preserves the number of set bits -/

theorem getbit_testBit (num pos m : ℕ) :
    (getbit num pos).testBit m = (decide (m = 0) && num.testBit pos) := by
  rw [getbit_eq_testBit]
  rcases h : num.testBit pos with - | -
  · simp [Nat.zero_testBit]
  · rw [if_pos rfl]
    rw [show (1 : ℕ) = 2 ^ 0 by norm_num, Nat.testBit_two_pow]
    simp [eq_comm]

theorem shuffleAux_testBit (num : ℕ) : ∀ (p : List ℕ) (i j : ℕ),
    (shuffleAux num p i).testBit j =
      (decide (i ≤ j) && decide (j - i < p.length) && num.testBit (p.getD (j - i) 0)) := by
  intro p
  induction p with
  | nil =>
    intro i j
    simp [shuffleAux, Nat.zero_testBit]
  | cons pos rest ih =>
    intro i j
    show ((getbit num pos <<< i) ||| shuffleAux num rest (i + 1)).testBit j = _
    rw [Nat.testBit_or, Nat.testBit_shiftLeft, getbit_testBit, ih (i + 1) j]
    rcases Nat.lt_trichotomy j i with hj | hj | hj
    · have h1 : ¬ i ≤ j := by omega
      have h2 : ¬ i + 1 ≤ j := by omega
      simp [h1, h2]
    · subst hj
      simp
    · have h1 : i ≤ j := by omega
      have h2 : i + 1 ≤ j := by omega
      have h3 : ¬ (j - i = 0) := by omega
      have hgd : (pos :: rest).getD (j - i) 0 = rest.getD (j - (i + 1)) 0 := by
        have heq : j - i = (j - (i + 1)) + 1 := by omega
        rw [heq]
        rfl
      rw [hgd]
      have hdec : decide (j - i < rest.length + 1) = decide (j - (i + 1) < rest.length) := by
        apply decide_eq_decide.mpr
        omega
      simp only [List.length_cons, hdec, decide_eq_true h1, decide_eq_true h2,
        decide_eq_false h3, Bool.false_and, Bool.and_false, Bool.false_or, Bool.true_and]

theorem shuffle_testBit (num : ℕ) (p : List ℕ) (j : ℕ) :
    (shuffle num p).testBit j = (decide (j < p.length) && num.testBit (p.getD j 0)) := by
  unfold shuffle
  rw [shuffleAux_testBit]
  simp

theorem shuffleAux_lt (num : ℕ) : ∀ (p : List ℕ) (i : ℕ),
    shuffleAux num p i < 2 ^ (i + p.length) := by
  intro p
  induction p with
  | nil =>
    intro i
    simp [shuffleAux]
  | cons pos rest ih =>
    intro i
    show (getbit num pos <<< i) ||| shuffleAux num rest (i + 1) < _
    apply Nat.or_lt_two_pow
    · have hb : getbit num pos ≤ 1 := by
        rw [getbit_eq_testBit]
        split <;> omega
      calc getbit num pos <<< i = getbit num pos * 2 ^ i := by rw [Nat.shiftLeft_eq]
        _ ≤ 1 * 2 ^ i := Nat.mul_le_mul_right _ hb
        _ < 2 ^ (i + (rest.length + 1)) := by
            rw [one_mul]
            exact Nat.pow_lt_pow_right (by norm_num) (by omega)
    · have := ih (i + 1)
      have heq : i + 1 + rest.length = i + (rest.length + 1) := by omega
      rw [heq] at this
      exact this

theorem shuffle_lt_two_pow (num : ℕ) (p : List ℕ) : shuffle num p < 2 ^ p.length := by
  have := shuffleAux_lt num p 0
  simpa using this

theorem countP_range_stable (f : ℕ → Bool) (a : ℕ) (hf : ∀ k, a ≤ k → f k = false) :
    ∀ b, a ≤ b → (List.range b).countP f = (List.range a).countP f := by
  intro b
  induction b with
  | zero =>
    intro h
    have : a = 0 := by omega
    rw [this]
  | succ b ih =>
    intro h
    rcases Nat.lt_or_ge a (b + 1) with h2 | h2
    · rw [List.range_succ, List.countP_append, ih (by omega)]
      have : f b = false := hf b (by omega)
      simp [this]
    · have : a = b + 1 := by omega
      rw [this]

theorem countOnes_eq_countP {num m : ℕ} (h : num < 2 ^ m) :
    countOnes num = (List.range m).countP (fun i => num.testBit i) := by
  have hcount : countOnes num
      = (List.range (binLength num)).countP (fun i => num.testBit i) := by
    unfold countOnes getPosOnes
    rw [List.countP_eq_length_filter]
  rcases Nat.le_total (binLength num) m with hm | hm
  · rw [hcount]
    exact (countP_range_stable _ (binLength num)
      (fun k hk => testBit_false_of_binLength_le hk) m hm).symm
  · rw [hcount]
    exact countP_range_stable _ m
      (fun k hk => Nat.testBit_lt_two_pow
        (lt_of_lt_of_le h (Nat.pow_le_pow_right (by norm_num) hk)))
      (binLength num) hm

theorem map_getD_range (l : List ℕ) :
    (List.range l.length).map (fun i => l.getD i 0) = l := by
  apply List.ext_getElem
  · simp
  · intro i h1 h2
    simp only [List.getElem_map, List.getElem_range, List.getD_eq_getElem?_getD,
      List.getElem?_eq_getElem h2, Option.getD_some]

theorem countOnes_shuffle {num n : ℕ} {p : List ℕ} (hp : p.Perm (List.range n))
    (hnum : num < 2 ^ n) : countOnes (shuffle num p) = countOnes num := by
  have hlen : p.length = n := by rw [hp.length_eq, List.length_range]
  have h1 : countOnes (shuffle num p)
      = (List.range n).countP (fun i => (shuffle num p).testBit i) :=
    countOnes_eq_countP (by rw [← hlen]; exact shuffle_lt_two_pow num p)
  have h2 : (List.range n).countP (fun i => (shuffle num p).testBit i)
      = (List.range n).countP (fun i => num.testBit (p.getD i 0)) := by
    apply List.countP_congr
    intro i hi
    rw [List.mem_range] at hi
    rw [shuffle_testBit]
    simp [hlen, hi]
  have h3 : (List.range n).countP (fun i => num.testBit (p.getD i 0))
      = p.countP (fun k => num.testBit k) := by
    conv_rhs => rw [← map_getD_range p]
    rw [List.countP_map, hlen]
    rfl
  have h4 : p.countP (fun k => num.testBit k)
      = (List.range n).countP (fun k => num.testBit k) := hp.countP_eq _
  rw [h1, h2, h3, h4, ← countOnes_eq_countP hnum]

theorem mem_insertAll {x : ℕ} : ∀ {l m : List ℕ},
    m ∈ insertAll x l ↔ ∃ s t, l = s ++ t ∧ m = s ++ x :: t := by
  intro l
  induction l with
  | nil =>
    intro m
    simp only [insertAll, List.mem_singleton]
    constructor
    · rintro rfl
      exact ⟨[], [], rfl, rfl⟩
    · rintro ⟨s, t, hst, rfl⟩
      obtain ⟨rfl, rfl⟩ := List.append_eq_nil.mp hst.symm
      rfl
  | cons y ys ih =>
    intro m
    simp only [insertAll, List.mem_cons, List.mem_map]
    constructor
    · rintro (rfl | ⟨zs, hzs, rfl⟩)
      · exact ⟨[], y :: ys, rfl, rfl⟩
      · obtain ⟨s, t, rfl, rfl⟩ := ih.mp hzs
        exact ⟨y :: s, t, rfl, rfl⟩
    · rintro ⟨s, t, hst, rfl⟩
      rcases s with - | ⟨y2, s⟩
      · simp at hst
        rw [hst]
        exact Or.inl rfl
      · simp only [List.cons_append, List.cons.injEq] at hst
        obtain ⟨rfl, hst2⟩ := hst
        exact Or.inr ⟨s ++ x :: t, ih.mpr ⟨s, t, hst2, rfl⟩, rfl⟩

theorem mem_permsList : ∀ {l m : List ℕ}, m ∈ permsList l ↔ m.Perm l := by
  intro l
  induction l with
  | nil =>
    intro m
    simp only [permsList, List.mem_singleton]
    exact ⟨fun h => h ▸ List.Perm.refl [], fun h => h.eq_nil⟩
  | cons x xs ih =>
    intro m
    simp only [permsList, List.mem_flatMap]
    constructor
    · rintro ⟨q, hq, hins⟩
      obtain ⟨s, t, rfl, rfl⟩ := mem_insertAll.mp hins
      exact List.Perm.trans List.perm_middle ((ih.mp hq).cons x)
    · intro hm
      have hx : x ∈ m := hm.symm.subset (by simp)
      obtain ⟨s, t, rfl⟩ := List.append_of_mem hx
      have hq : (s ++ t).Perm xs := by
        have h2 : (x :: (s ++ t)).Perm (s ++ x :: t) := List.perm_middle.symm
        exact (h2.trans hm).cons_inv
      exact ⟨s ++ t, ih.mpr hq, mem_insertAll.mpr ⟨s, t, rfl, rfl⟩⟩

theorem mem_equivBitPermutations {net : List ℕ} {n : ℕ} {m : List ℕ} :
    m ∈ equivBitPermutations net n ↔
      (m ≠ net ∧ ∃ p, p.Perm (List.range n) ∧ m = net.map (fun g => shuffle g p)) := by
  unfold equivBitPermutations
  rw [Finset.mem_erase, List.mem_toFinset]
  simp only [List.mem_map, mem_permsList]
  constructor
  · rintro ⟨hne, p, hp, heq⟩
    exact ⟨hne, p, hp, heq.symm⟩
  · rintro ⟨hne, p, hp, heq⟩
    exact ⟨hne, p, hp, heq.symm⟩

/-- C10 (implicit): `shuffle_bits` preserves the number of set bits of any
`num < 2^n` under any permutation of `range(n)`; consequently every member of
`equiv_bit_permutations(net, nqubit)` consists of integers with exactly two
set bits whenever `net` does. -/
theorem claimC10 :
    (∀ (n num : ℕ) (p : List ℕ), num < 2 ^ n → p.Perm (List.range n) →
      countOnes (shuffle num p) = countOnes num) ∧
    (∀ (n : ℕ) (net m : List ℕ), (∀ g ∈ net, g < 2 ^ n ∧ countOnes g = 2) →
      m ∈ equivBitPermutations net n → ∀ g ∈ m, countOnes g = 2) := by
  constructor
  · intro n num p hnum hp
    exact countOnes_shuffle hp hnum
  · intro n net m hnet hm g hg
    obtain ⟨-, p, hp, heq⟩ := mem_equivBitPermutations.mp hm
    rw [heq] at hg
    obtain ⟨g0, hg0, hgeq⟩ := List.mem_map.mp hg
    obtain ⟨hlt, hcount⟩ := hnet g0 hg0
    rw [← hgeq]
    rw [countOnes_shuffle hp hlt, hcount]

/-- C10 witness: the popcount is preserved at `num = 3`, `p = (1, 2, 0)`,
and the orbit member `(5, 5)` of `(3, 3)` on 3 qubits is made of two-bit
gates. -/
theorem claimC10_witness :
    countOnes (shuffle 3 [1, 2, 0]) = countOnes 3 ∧
      (∀ g ∈ [(5 : ℕ), 5], countOnes g = 2) :=
  ⟨claimC10.1 3 3 [1, 2, 0] (by norm_num) (by decide),
   claimC10.2 3 [3, 3] [5, 5] (by decide) (by decide)⟩

/-! ### C3: conjugation by swapping -/

theorem getD_mem_of_lt {l : List ℕ} {i : ℕ} (h : i < l.length) : l.getD i 0 ∈ l := by
  simp only [List.getD_eq_getElem?_getD, List.getElem?_eq_getElem h, Option.getD_some]
  exact List.getElem_mem h

/-- C3: for a valid network of depth at least 3,
`equiv_conjugation_by_swapping(net)` is exactly the set of variants obtained,
at each interior position `j` whose flanking gates `net[j-1]` and `net[j+1]`
coincide, by replacing `net[j]` with `swapbits(p1, p2, net[j])` where
`(p1, p2) = get_pos_ones(net[j-1])` (exhibited as the two bit positions
`u < v` of the flanking gate), keeping only variants different from `net`. -/
theorem claimC3 (net : List ℕ) (hd : 3 ≤ net.length) (hv : ∀ g ∈ net, IsGate g)
    (x : List ℕ) :
    x ∈ equivConjugationBySwapping net ↔
      ∃ j u v, 1 ≤ j ∧ j ≤ net.length - 2 ∧
        net.getD (j - 1) 0 = net.getD (j + 1) 0 ∧
        u < v ∧ net.getD (j - 1) 0 = 2 ^ u + 2 ^ v ∧
        x = net.set j (swapbits u v (net.getD j 0)) ∧ x ≠ net := by
  unfold equivConjugationBySwapping
  rw [List.mem_toFinset, List.mem_filterMap]
  constructor
  · rintro ⟨j, hj, hfj⟩
    rw [List.mem_range] at hj
    dsimp only [] at hfj
    by_cases h12 : net.getD j 0 = net.getD (j + 2) 0
    · rw [if_pos h12] at hfj
      obtain ⟨u, v, huv, hg1⟩ := hv (net.getD j 0) (getD_mem_of_lt (by omega))
      rw [hg1, getPosOnes_two_pow_add_two_pow huv] at hfj
      simp only [List.getD_cons_zero, List.getD_cons_succ] at hfj
      by_cases hne : net.set (j + 1) (swapbits u v (net.getD (j + 1) 0)) ≠ net
      · rw [if_pos hne] at hfj
        have hx : x = net.set (j + 1) (swapbits u v (net.getD (j + 1) 0)) :=
          (Option.some.injEq _ _ ▸ hfj).symm
        exact ⟨j + 1, u, v, by omega, by omega, h12, huv, hg1, hx, hx ▸ hne⟩
      · rw [if_neg hne] at hfj
        exact absurd hfj (by simp)
    · rw [if_neg h12] at hfj
      exact absurd hfj (by simp)
  · rintro ⟨j, u, v, hj1, hj2, hflank, huv, hgate, hx, hne⟩
    refine ⟨j - 1, ?_, ?_⟩
    · rw [List.mem_range]
      omega
    · dsimp only []
      have ha : j - 1 + 2 = j + 1 := by omega
      have hb : j - 1 + 1 = j := by omega
      rw [ha, hb, if_pos hflank, hgate, getPosOnes_two_pow_add_two_pow huv]
      simp only [List.getD_cons_zero, List.getD_cons_succ]
      rw [if_pos (by rw [← hx]; exact hne)]
      rw [← hx]

/-- C3 witness: the conjugate of `(3, 6, 3)` — position 1 replaced by
`swapbits(0, 1, 6)` — is produced, via the theorem applied at that network. -/
theorem claimC3_witness :
    [3, swapbits 0 1 6, 3] ∈ equivConjugationBySwapping [3, 6, 3] := by
  apply (claimC3 [3, 6, 3] (by norm_num)
    (by
      intro g hg
      simp only [List.mem_cons, List.not_mem_nil, or_false] at hg
      rcases hg with rfl | rfl | rfl
      · exact ⟨0, 1, by norm_num, by norm_num⟩
      · exact ⟨1, 2, by norm_num, by norm_num⟩
      · exact ⟨0, 1, by norm_num, by norm_num⟩)
    [3, swapbits 0 1 6, 3]).mpr
  exact ⟨1, 0, 1, by norm_num, by norm_num, by decide, by norm_num, by decide,
    by decide, by decide⟩

/-! ### C6: `equiv_set_net` and time reversal (code bug) -/

/-- C6 (code bug): for the network `(3, 5, 3, 6)` on 3 qubits, the set
computed by `equiv_set_net` with every criterion enabled does NOT contain
the reversed network `net[::-1] = (6, 3, 5, 3)`; because of the splat
`S_equiv += [*equiv_time_reversal(net)]` it contains the bare gate integers
of the reversed tuple instead (e.g. the integer 6). -/
theorem claimC6_bug :
    Sum.inr (equivTimeReversal [3, 5, 3, 6]) ∉
        equivSetNet [3, 5, 3, 6] 3 true true true true ∧
      Sum.inl 6 ∈ equivSetNet [3, 5, 3, 6] 3 true true true true := by decide

/-! ### C7: depth-1 enumeration (code bug) -/

/-- C7 (code bug): `unique2net(3, 1)` does not return a canonical set at
all — with `net_depth = 1` the loop `for depth in range(2, net_depth+1)` in
`list_non_iso_graphs` never runs, so `LNIG = GNIsom[depth]` reads the unbound
loop variable and raises NameError. -/
theorem claimC7_crash : unique2netModel 3 1 = Except.error PyErr.nameError := by decide

/-! ### C8: nqubit < 2 (corrected) -/

/-- C8 counterexample: at `nqubit = 1, net_depth = 1` the enumeration fails
with IndexError (from `cphases[0]` on the empty gate list), not with the
spec's `InvalidConfigurationError`. -/
theorem claimC8_counterexample :
    unique2netModel 1 1 = Except.error PyErr.indexError ∧
      unique2netModel 1 1 ≠ Except.error PyErr.invalidConfiguration := by decide

/-- C8 amended: for every `nqubit < 2` and depth `d ≥ 1` the enumeration
fails immediately — before any enumeration work — but with an uncaught
IndexError (accessing `cphases[0]` on an empty list), since the code defines
no `InvalidConfigurationError`. -/
theorem claimC8_amended (n d : ℕ) (hn : n < 2) (hd : 1 ≤ d) :
    unique2netModel n d = Except.error PyErr.indexError := by
  have hcp : cphases n = [] := by
    interval_cases n <;> rfl
  unfold unique2netModel listNonIsoGraphs
  rw [hcp]

/-- C8 witness: the amended behaviour evaluated at `nqubit = 0, d = 5`. -/
theorem claimC8_witness : unique2netModel 0 5 = Except.error PyErr.indexError :=
  claimC8_amended 0 5 (by norm_num) (by norm_num)

/-! ### C1: the ordering-respecting isomorphism test (corrected) -/

theorem foldl_min_eq_self : ∀ (t : List ℕ) (a : ℕ), (∀ x ∈ t, a ≤ x) →
    t.foldl min a = a := by
  intro t
  induction t with
  | nil => intro a h; rfl
  | cons x t ih =>
    intro a h
    show t.foldl min (min a x) = a
    have hax : min a x = a := min_eq_left (h x (by simp))
    rw [hax]
    exact ih a (fun y hy => h y (by simp [hy]))

theorem sorted_min?_eq_head? {l : List ℕ} (h : l.Sorted (· ≤ ·)) :
    l.min? = l.head? := by
  rcases l with - | ⟨a, t⟩
  · rfl
  · rw [List.min?_cons', List.head?_cons]
    rcases h with - | ⟨hrel, -⟩
    rw [foldl_min_eq_self t a hrel]

theorem pairLabels_sorted (net : List ℕ) (u v : ℕ) :
    (pairLabels net u v).Sorted (· ≤ ·) :=
  ((List.sorted_lt_range _).filter _).imp le_of_lt

/-- C1 counterexample: the networks `a = (3, 5, 3, 5)` and `b = (3, 5, 5, 3)`
on 3 qubits have equal depth and `is_isomorphic_to` accepts them (the
identity relabelling matches edge counts and first labels), yet no qubit
relabelling preserves the full sorted edge-label lists — so the test is NOT
the spec's isomorphism-with-ordering. -/
theorem claimC1_counterexample :
    ([3, 5, 3, 5] : List ℕ).length = ([3, 5, 5, 3] : List ℕ).length ∧
      isIsomorphicTo 3 [3, 5, 3, 5] [3, 5, 5, 3] ∧
      ¬ isomorphicWithOrdering 3 [3, 5, 3, 5] [3, 5, 5, 3] := by decide

/-- C1 amended: `is_isomorphic_to` returns true iff some relabelling of the
qubit labels preserves, for every pair of nodes, the number of parallel
edges and the MINIMUM edge-position label between them (the label of the
first-inserted edge, multigraph key 0) — not the full sorted label list. -/
theorem claimC1_amended (n : ℕ) (a b : List ℕ) :
    isIsomorphicTo n a b ↔
      ∃ p ∈ permsList (List.range n), ∀ u < n, ∀ v < n,
        (pairLabels a u v).length = (pairLabels b (p.getD u 0) (p.getD v 0)).length ∧
        (pairLabels a u v).min? = (pairLabels b (p.getD u 0) (p.getD v 0)).min? := by
  unfold isIsomorphicTo
  constructor
  · rintro ⟨p, hp, h⟩
    refine ⟨p, hp, fun u hu v hv => ⟨(h u hu v hv).1, ?_⟩⟩
    rw [sorted_min?_eq_head? (pairLabels_sorted a u v),
      sorted_min?_eq_head? (pairLabels_sorted b _ _)]
    exact (h u hu v hv).2
  · rintro ⟨p, hp, h⟩
    refine ⟨p, hp, fun u hu v hv => ⟨(h u hu v hv).1, ?_⟩⟩
    rw [← sorted_min?_eq_head? (pairLabels_sorted a u v),
      ← sorted_min?_eq_head? (pairLabels_sorted b _ _)]
    exact (h u hu v hv).2

/-! ### Permutation-list toolkit -/

theorem getD_range {m k : ℕ} (h : k < m) : (List.range m).getD k 0 = k := by
  have hk : k < (List.range m).length := by simpa using h
  simp only [List.getD_eq_getElem?_getD, List.getElem?_eq_getElem hk, Option.getD_some,
    List.getElem_range]

theorem map_range_getD {m k : ℕ} (f : ℕ → ℕ) (h : k < m) :
    ((List.range m).map f).getD k 0 = f k := by
  have hk : k < ((List.range m).map f).length := by simpa using h
  simp only [List.getD_eq_getElem?_getD, List.getElem?_eq_getElem hk, Option.getD_some,
    List.getElem_map, List.getElem_range]

theorem getD_map_of_lt {l : List ℕ} (f : ℕ → ℕ) {k : ℕ} (h : k < l.length) :
    (l.map f).getD k 0 = f (l.getD k 0) := by
  have hk : k < (l.map f).length := by simpa using h
  simp only [List.getD_eq_getElem?_getD, List.getElem?_eq_getElem hk,
    List.getElem?_eq_getElem h, Option.getD_some, List.getElem_map]

theorem perm_range_length {p : List ℕ} {n : ℕ} (hp : p.Perm (List.range n)) :
    p.length = n := by
  rw [hp.length_eq, List.length_range]

theorem perm_range_getD_lt {p : List ℕ} {n : ℕ} (hp : p.Perm (List.range n))
    {i : ℕ} (hi : i < n) : p.getD i 0 < n := by
  have hmem : p.getD i 0 ∈ p := getD_mem_of_lt (by rw [perm_range_length hp]; exact hi)
  have := hp.subset hmem
  simpa using this

theorem perm_range_nodup {p : List ℕ} {n : ℕ} (hp : p.Perm (List.range n)) :
    p.Nodup := hp.nodup_iff.mpr (List.nodup_range n)

theorem nodup_getD_inj {p : List ℕ} (hnd : p.Nodup) {i j : ℕ}
    (hi : i < p.length) (hj : j < p.length) (h : p.getD i 0 = p.getD j 0) : i = j := by
  have h2 : p.get ⟨i, hi⟩ = p.get ⟨j, hj⟩ := by
    simpa only [List.getD_eq_getElem?_getD, List.getElem?_eq_getElem hi,
      List.getElem?_eq_getElem hj, Option.getD_some, List.get_eq_getElem] using h
  have h3 := hnd.get_inj_iff.mp h2
  exact congrArg Fin.val h3

theorem indexOf_of_getD {p : List ℕ} (hnd : p.Nodup) {i : ℕ} {x : ℕ}
    (hi : i < p.length) (hx : p.getD i 0 = x) : p.indexOf x = i := by
  have hmem : x ∈ p := hx ▸ getD_mem_of_lt hi
  have hlt : p.indexOf x < p.length := List.indexOf_lt_length.mpr hmem
  have hval : p.getD (p.indexOf x) 0 = x := by
    simp only [List.getD_eq_getElem?_getD, List.getElem?_eq_getElem hlt, Option.getD_some]
    exact List.getElem_indexOf hlt
  exact nodup_getD_inj hnd hlt hi (hval.trans hx.symm)

theorem getD_indexOf {p : List ℕ} {x : ℕ} (hx : x ∈ p) :
    p.getD (p.indexOf x) 0 = x := by
  have hlt : p.indexOf x < p.length := List.indexOf_lt_length.mpr hx
  simp only [List.getD_eq_getElem?_getD, List.getElem?_eq_getElem hlt, Option.getD_some]
  exact List.getElem_indexOf hlt

theorem perm_range_mem {p : List ℕ} {n : ℕ} (hp : p.Perm (List.range n))
    {x : ℕ} (hx : x < n) : x ∈ p := hp.symm.subset (by simpa using hx)

theorem indexOf_lt_of_perm_range {p : List ℕ} {n : ℕ} (hp : p.Perm (List.range n))
    {x : ℕ} (hx : x < n) : p.indexOf x < n := by
  rw [← perm_range_length hp]
  exact List.indexOf_lt_length.mpr (perm_range_mem hp hx)

theorem perm_range_of_nodup {l : List ℕ} {n : ℕ} (hnd : l.Nodup)
    (hlen : l.length = n) (hmem : ∀ x ∈ l, x < n) : l.Perm (List.range n) := by
  apply List.perm_of_nodup_nodup_toFinset_eq hnd (List.nodup_range n)
  apply Finset.eq_of_subset_of_card_le
  · intro x hx
    rw [List.mem_toFinset] at hx
    rw [List.mem_toFinset, List.mem_range]
    exact hmem x hx
  · rw [List.toFinset_card_of_nodup hnd, List.toFinset_card_of_nodup (List.nodup_range n),
      List.length_range, hlen]

theorem invPerm_perm {p : List ℕ} {n : ℕ} (hp : p.Perm (List.range n)) :
    (invPerm p).Perm (List.range n) := by
  have hlen : p.length = n := perm_range_length hp
  have hnd : p.Nodup := perm_range_nodup hp
  apply perm_range_of_nodup
  · unfold invPerm
    apply List.Nodup.map_on ?_ (List.nodup_range _)
    intro i hi j hj hij
    rw [List.mem_range, hlen] at hi hj
    have h1 : p.getD (p.indexOf i) 0 = i := getD_indexOf (perm_range_mem hp hi)
    have h2 : p.getD (p.indexOf j) 0 = j := getD_indexOf (perm_range_mem hp hj)
    rw [← h1, ← h2, hij]
  · unfold invPerm
    simp [hlen]
  · intro x hx
    unfold invPerm at hx
    obtain ⟨i, hi, rfl⟩ := List.mem_map.mp hx
    rw [List.mem_range, hlen] at hi
    exact indexOf_lt_of_perm_range hp hi

theorem invPerm_getD {p : List ℕ} {n : ℕ} (hp : p.Perm (List.range n))
    {x : ℕ} (hx : x < n) : (invPerm p).getD x 0 = p.indexOf x := by
  unfold invPerm
  exact map_range_getD _ (by rw [perm_range_length hp]; exact hx)

theorem getD_invPerm_getD {p : List ℕ} {n : ℕ} (hp : p.Perm (List.range n))
    {i : ℕ} (hi : i < n) : (invPerm p).getD (p.getD i 0) 0 = i := by
  rw [invPerm_getD hp (perm_range_getD_lt hp hi)]
  exact indexOf_of_getD (perm_range_nodup hp) (by rw [perm_range_length hp]; exact hi) rfl

theorem getD_getD_invPerm {p : List ℕ} {n : ℕ} (hp : p.Perm (List.range n))
    {x : ℕ} (hx : x < n) : p.getD ((invPerm p).getD x 0) 0 = x := by
  rw [invPerm_getD hp hx]
  exact getD_indexOf (perm_range_mem hp hx)

/-! ### `shuffle_bits` on two-bit gates, composition and inversion -/

theorem shuffle_gate {p : List ℕ} {n x y : ℕ} (hp : p.Perm (List.range n))
    (hx : x < n) (hy : y < n) (hxy : x ≠ y) :
    shuffle (2 ^ x + 2 ^ y) p = 2 ^ p.indexOf x + 2 ^ p.indexOf y := by
  have hnd := perm_range_nodup hp
  have hlen := perm_range_length hp
  have hix := indexOf_lt_of_perm_range hp hx
  have hiy := indexOf_lt_of_perm_range hp hy
  have hixy : p.indexOf x ≠ p.indexOf y := by
    intro hcon
    apply hxy
    rw [← getD_indexOf (perm_range_mem hp hx), ← getD_indexOf (perm_range_mem hp hy), hcon]
  apply Nat.eq_of_testBit_eq
  intro k
  rw [shuffle_testBit, testBit_two_pow_add_two_pow hixy]
  rcases Nat.lt_or_ge k n with hk | hk
  · rw [decide_eq_true (by rw [hlen]; exact hk), Bool.true_and,
      testBit_two_pow_add_two_pow hxy]
    have hfwd : decide (p.getD k 0 = x) = decide (k = p.indexOf x) := by
      apply decide_eq_decide.mpr
      constructor
      · intro hh
        exact (indexOf_of_getD hnd (by rw [hlen]; exact hk) hh).symm
      · rintro rfl
        exact getD_indexOf (perm_range_mem hp hx)
    have hfwd2 : decide (p.getD k 0 = y) = decide (k = p.indexOf y) := by
      apply decide_eq_decide.mpr
      constructor
      · intro hh
        exact (indexOf_of_getD hnd (by rw [hlen]; exact hk) hh).symm
      · rintro rfl
        exact getD_indexOf (perm_range_mem hp hy)
    rw [hfwd, hfwd2]
  · rw [decide_eq_false (by rw [hlen]; omega : ¬ k < p.length), Bool.false_and]
    have h1 : ¬ k = p.indexOf x := by omega
    have h2 : ¬ k = p.indexOf y := by omega
    simp [h1, h2]

theorem shuffle_shuffle {p q : List ℕ} {n : ℕ} (hp : p.Perm (List.range n))
    (hq : q.Perm (List.range n)) (g : ℕ) :
    shuffle (shuffle g p) q = shuffle g (q.map (fun j => p.getD j 0)) := by
  have hlp := perm_range_length hp
  have hlq := perm_range_length hq
  apply Nat.eq_of_testBit_eq
  intro k
  rw [shuffle_testBit, shuffle_testBit, shuffle_testBit]
  rcases Nat.lt_or_ge k n with hk | hk
  · have hk1 : k < q.length := by rw [hlq]; exact hk
    have hk2 : k < (q.map (fun j => p.getD j 0)).length := by simpa using hk1
    rw [decide_eq_true hk1, decide_eq_true hk2, Bool.true_and, Bool.true_and,
      getD_map_of_lt _ hk1, decide_eq_true (by rw [hlp]; exact perm_range_getD_lt hq hk),
      Bool.true_and]
  · have hk1 : ¬ k < q.length := by rw [hlq]; omega
    have hk2 : ¬ k < (q.map (fun j => p.getD j 0)).length := by simpa using hk1
    rw [decide_eq_false hk1, decide_eq_false hk2]
    simp

theorem comp_perm_range {p q : List ℕ} {n : ℕ} (hp : p.Perm (List.range n))
    (hq : q.Perm (List.range n)) : (q.map (fun j => p.getD j 0)).Perm (List.range n) := by
  have h1 : (q.map (fun j => p.getD j 0)).Perm ((List.range n).map (fun j => p.getD j 0)) :=
    hq.map _
  have h2 : (List.range n).map (fun j => p.getD j 0) = p := by
    rw [← perm_range_length hp]
    exact map_getD_range p
  rw [h2] at h1
  exact h1.trans hp

theorem shuffle_range {g n : ℕ} (hg : g < 2 ^ n) : shuffle g (List.range n) = g := by
  apply Nat.eq_of_testBit_eq
  intro k
  rw [shuffle_testBit]
  rcases Nat.lt_or_ge k n with hk | hk
  · rw [decide_eq_true (by simpa using hk), Bool.true_and, getD_range hk]
  · rw [decide_eq_false (by simpa using Nat.not_lt.mpr hk)]
    rw [Nat.testBit_lt_two_pow (lt_of_lt_of_le hg (Nat.pow_le_pow_right (by norm_num) hk))]
    simp

theorem invPerm_comp_eq_range {p : List ℕ} {n : ℕ} (hp : p.Perm (List.range n)) :
    (invPerm p).map (fun j => p.getD j 0) = List.range n := by
  apply List.ext_getElem
  · simp [perm_range_length (invPerm_perm hp)]
  · intro i h1 h2
    rw [List.length_map, perm_range_length (invPerm_perm hp)] at h1
    have hg1 : ((invPerm p).map (fun j => p.getD j 0))[i] =
        p.getD ((invPerm p).getD i 0) 0 := by
      have hi : i < (invPerm p).length := by rw [perm_range_length (invPerm_perm hp)]; exact h1
      simp only [List.getElem_map]
      congr 1
      simp only [List.getD_eq_getElem?_getD, List.getElem?_eq_getElem hi, Option.getD_some]
    rw [hg1, getD_getD_invPerm hp h1, List.getElem_range]

theorem shuffle_shuffle_invPerm {p : List ℕ} {n g : ℕ} (hp : p.Perm (List.range n))
    (hg : g < 2 ^ n) : shuffle (shuffle g p) (invPerm p) = g := by
  rw [shuffle_shuffle hp (invPerm_perm hp), invPerm_comp_eq_range hp, shuffle_range hg]

theorem gate_lt_two_pow {n g : ℕ} (h : IsGateOn n g) : g < 2 ^ n := by
  obtain ⟨u, v, huv, hvn, rfl⟩ := h
  have h1 : 2 ^ u < 2 ^ v := Nat.pow_lt_pow_right (by norm_num) huv
  have h2 : 2 ^ (v + 1) ≤ 2 ^ n := Nat.pow_le_pow_right (by norm_num) (by omega)
  have h3 : 2 ^ (v + 1) = 2 ^ v + 2 ^ v := by rw [Nat.pow_succ, Nat.mul_two]
  omega

theorem map_shuffle_invPerm {p : List ℕ} {n : ℕ} {net : List ℕ}
    (hp : p.Perm (List.range n)) (hnet : ValidNet n net) :
    (net.map (fun g => shuffle g p)).map (fun g => shuffle g (invPerm p)) = net := by
  rw [List.map_map]
  apply List.map_congr_left ?_ |>.trans (List.map_id net)
  intro g hg
  exact shuffle_shuffle_invPerm hp (gate_lt_two_pow (hnet g hg))

/-! ### Transpositions as permutation lists -/

theorem swapFun_involutive (x r : ℕ) : ∀ i, swapFun x r (swapFun x r i) = i := by
  intro i
  unfold swapFun
  by_cases h1 : i = x
  · by_cases h2 : r = x <;> simp [h1, h2]
  · by_cases h2 : i = r
    · simp [h1, h2]
    · simp [h1, h2]

theorem swapFun_inj (x r : ℕ) : Function.Injective (swapFun x r) := by
  intro i j h
  have := congrArg (swapFun x r) h
  rwa [swapFun_involutive, swapFun_involutive] at this

theorem swapList_perm {n x r : ℕ} (hx : x < n) (hr : r < n) :
    (swapList n x r).Perm (List.range n) := by
  apply perm_range_of_nodup
  · exact (List.nodup_range n).map (swapFun_inj x r)
  · simp [swapList]
  · intro v hv
    obtain ⟨i, hi, rfl⟩ := List.mem_map.mp hv
    rw [List.mem_range] at hi
    unfold swapFun
    split
    · exact hr
    · split
      · exact hx
      · exact hi

theorem getD_swapList {n x r i : ℕ} (hi : i < n) :
    (swapList n x r).getD i 0 = swapFun x r i := map_range_getD _ hi

theorem indexOf_swapList_left {n x r : ℕ} (hx : x < n) (hr : r < n) (hxr : x ≠ r) :
    (swapList n x r).indexOf x = r := by
  apply indexOf_of_getD (perm_range_nodup (swapList_perm hx hr))
    (by rw [perm_range_length (swapList_perm hx hr)]; exact hr)
  rw [getD_swapList hr]
  unfold swapFun
  simp [Ne.symm hxr]

theorem indexOf_swapList_fix {n x r w : ℕ} (hx : x < n) (hr : r < n) (hw : w < n)
    (hwx : w ≠ x) (hwr : w ≠ r) : (swapList n x r).indexOf w = w := by
  apply indexOf_of_getD (perm_range_nodup (swapList_perm hx hr))
    (by rw [perm_range_length (swapList_perm hx hr)]; exact hw)
  rw [getD_swapList hw]
  unfold swapFun
  simp [hwx, hwr]

/-! ### The spec's isomorphism-with-ordering is exactly bit-permutation
equivalence on valid networks -/

theorem mem_pairLabels {net : List ℕ} {u v k : ℕ} :
    k ∈ pairLabels net u v ↔ k < net.length ∧ net.getD k 0 = 2 ^ u + 2 ^ v ∧ u ≠ v := by
  unfold pairLabels
  rw [List.mem_filter, List.mem_range]
  simp [and_assoc]

theorem isomorphicWithOrdering_iff_orbit {n : ℕ} {a b : List ℕ}
    (ha : ValidNet n a) (hb : ValidNet n b) :
    isomorphicWithOrdering n a b ↔
      ∃ q, q.Perm (List.range n) ∧ b = a.map (fun g => shuffle g q) := by
  constructor
  · rintro ⟨p, hpmem, h⟩
    have hp : p.Perm (List.range n) := mem_permsList.mp hpmem
    refine ⟨invPerm p, invPerm_perm hp, ?_⟩
    have hiff : ∀ k, k < a.length ↔ k < b.length := by
      intro k
      constructor
      · intro hk
        obtain ⟨u, v, huv, hvn, hak⟩ := ha (a.getD k 0) (getD_mem_of_lt hk)
        have hun : u < n := by omega
        have hk1 : k ∈ pairLabels a u v := mem_pairLabels.mpr ⟨hk, hak, by omega⟩
        rw [h u hun v hvn] at hk1
        exact (mem_pairLabels.mp hk1).1
      · intro hk
        obtain ⟨u', v', hu'v', hv'n, hbk⟩ := hb (b.getD k 0) (getD_mem_of_lt hk)
        have hu'n : u' < n := by omega
        have hun : (invPerm p).getD u' 0 < n := perm_range_getD_lt (invPerm_perm hp) hu'n
        have hvn2 : (invPerm p).getD v' 0 < n := perm_range_getD_lt (invPerm_perm hp) hv'n
        have hpu : p.getD ((invPerm p).getD u' 0) 0 = u' := getD_getD_invPerm hp hu'n
        have hpv : p.getD ((invPerm p).getD v' 0) 0 = v' := getD_getD_invPerm hp hv'n
        have huv2 : (invPerm p).getD u' 0 ≠ (invPerm p).getD v' 0 := by
          intro hcon
          apply (by omega : u' ≠ v')
          rw [← hpu, ← hpv, hcon]
        have hk1 : k ∈ pairLabels b (p.getD ((invPerm p).getD u' 0) 0)
            (p.getD ((invPerm p).getD v' 0) 0) := by
          rw [hpu, hpv]
          exact mem_pairLabels.mpr ⟨hk, hbk, by omega⟩
        rw [← h _ hun _ hvn2] at hk1
        exact (mem_pairLabels.mp hk1).1
    have hlen : b.length = (a.map (fun g => shuffle g (invPerm p))).length := by
      rw [List.length_map]
      rcases Nat.lt_trichotomy a.length b.length with hlt | heq | hgt
      · exact absurd ((hiff a.length).mpr hlt) (lt_irrefl _)
      · exact heq.symm
      · exact absurd ((hiff b.length).mp hgt) (lt_irrefl _)
    apply List.ext_getElem hlen
    intro k hk1 hk2
    have hka : k < a.length := by rw [List.length_map] at hk2; exact hk2
    obtain ⟨x, y, hxy, hyn, hax⟩ := ha (a.getD k 0) (getD_mem_of_lt hka)
    have hxn : x < n := by omega
    have hk3 : k ∈ pairLabels a x y := mem_pairLabels.mpr ⟨hka, hax, by omega⟩
    rw [h x hxn y hyn] at hk3
    obtain ⟨hkb, hbk, hne⟩ := mem_pairLabels.mp hk3
    have hgb : b[k] = 2 ^ p.getD x 0 + 2 ^ p.getD y 0 := by
      rw [← hbk]
      simp only [List.getD_eq_getElem?_getD, List.getElem?_eq_getElem hk1, Option.getD_some]
    have hga : a[k] = 2 ^ x + 2 ^ y := by
      rw [← hax]
      simp only [List.getD_eq_getElem?_getD, List.getElem?_eq_getElem hka, Option.getD_some]
    rw [hgb, List.getElem_map, hga,
      shuffle_gate (invPerm_perm hp) hxn hyn (by omega)]
    have hidx : (invPerm p).indexOf x = p.getD x 0 := by
      apply indexOf_of_getD (perm_range_nodup (invPerm_perm hp))
        (by rw [perm_range_length (invPerm_perm hp)]; exact perm_range_getD_lt hp hxn)
      exact getD_invPerm_getD hp hxn
    have hidy : (invPerm p).indexOf y = p.getD y 0 := by
      apply indexOf_of_getD (perm_range_nodup (invPerm_perm hp))
        (by rw [perm_range_length (invPerm_perm hp)]; exact perm_range_getD_lt hp hyn)
      exact getD_invPerm_getD hp hyn
    rw [hidx, hidy]
  · rintro ⟨q, hq, rfl⟩
    refine ⟨invPerm q, mem_permsList.mpr (invPerm_perm hq), ?_⟩
    intro u hu v hv
    unfold pairLabels
    rw [List.length_map]
    apply List.filter_congr
    intro k hk
    rw [List.mem_range] at hk
    by_cases huv : u = v
    · have hsame : (invPerm q).getD u 0 = (invPerm q).getD v 0 := by rw [huv]
      rw [decide_eq_false (by omega : ¬ u ≠ v),
        decide_eq_false (by rw [hsame]; omega : ¬ (invPerm q).getD u 0 ≠ (invPerm q).getD v 0)]
      simp
    · obtain ⟨x, y, hxy, hyn2, hax⟩ := ha (a.getD k 0) (getD_mem_of_lt hk)
      have hxn2 : x < n := by omega
      have hmap : (a.map (fun g => shuffle g q)).getD k 0 = shuffle (a.getD k 0) q :=
        getD_map_of_lt _ hk
      have hinvu : (invPerm q).getD u 0 = q.indexOf u := invPerm_getD hq hu
      have hinvv : (invPerm q).getD v 0 = q.indexOf v := invPerm_getD hq hv
      have hne2 : q.indexOf u ≠ q.indexOf v := by
        intro hcon
        apply huv
        rw [← getD_indexOf (perm_range_mem hq hu), ← getD_indexOf (perm_range_mem hq hv),
          hcon]
      have hnexy : q.indexOf x ≠ q.indexOf y := by
        intro hcon
        apply (by omega : x ≠ y)
        rw [← getD_indexOf (perm_range_mem hq hxn2), ← getD_indexOf (perm_range_mem hq hyn2),
          hcon]
      have hmain : (a.getD k 0 = 2 ^ u + 2 ^ v) ↔
          ((a.map (fun g => shuffle g q)).getD k 0 = 2 ^ q.indexOf u + 2 ^ q.indexOf v) := by
        rw [hmap, hax, shuffle_gate hq hxn2 hyn2 (by omega)]
        constructor
        · intro hh
          rcases two_pow_add_two_pow_inj (by omega) huv hh with ⟨rfl, rfl⟩ | ⟨rfl, rfl⟩
          · rfl
          · rw [Nat.add_comm]
        · intro hh
          rcases two_pow_add_two_pow_inj hnexy hne2 hh with ⟨h1, h2⟩ | ⟨h1, h2⟩
          · have hxu : x = u := by
              rw [← getD_indexOf (perm_range_mem hq hxn2), h1,
                getD_indexOf (perm_range_mem hq hu)]
            have hyv : y = v := by
              rw [← getD_indexOf (perm_range_mem hq hyn2), h2,
                getD_indexOf (perm_range_mem hq hv)]
            rw [hxu, hyv]
          · have hxv : x = v := by
              rw [← getD_indexOf (perm_range_mem hq hxn2), h1,
                getD_indexOf (perm_range_mem hq hv)]
            have hyu : y = u := by
              rw [← getD_indexOf (perm_range_mem hq hyn2), h2,
                getD_indexOf (perm_range_mem hq hu)]
            rw [hxv, hyu, Nat.add_comm]
      rw [hinvu, hinvv, decide_eq_true (huv : u ≠ v),
        decide_eq_true (hne2 : q.indexOf u ≠ q.indexOf v), Bool.and_true, Bool.and_true,
        decide_eq_decide.mpr hmain]

/-! ### Structure of `__edges_to_nets_uperm` survivors -/

theorem mem_survivors {gl : List (List ℕ)} {n : ℕ} {x : List ℕ} :
    x ∈ (gl.enum.filter (fun ix =>
      !(gl.enum.any (fun jy => decide (ix.1 < jy.1) &&
        decide ((equivBitPermutations ix.2 n ∩ equivBitPermutations jy.2 n).Nonempty))))).map
        Prod.snd ↔
    ∃ i : ℕ, gl[i]? = some x ∧
      ∀ (j : ℕ) (y : List ℕ), gl[j]? = some y → i < j →
        ¬ (equivBitPermutations x n ∩ equivBitPermutations y n).Nonempty := by
  rw [List.mem_map]
  constructor
  · rintro ⟨ix, hmem, rfl⟩
    obtain ⟨henum, hpred⟩ := List.mem_filter.mp hmem
    refine ⟨ix.1, ?_, ?_⟩
    · rcases ix with ⟨i, x⟩
      exact List.mk_mem_enum_iff_getElem?.mp henum
    · intro j y hj hij hne
      have hany : (gl.enum.any (fun jy => decide (ix.1 < jy.1) &&
          decide ((equivBitPermutations ix.2 n ∩ equivBitPermutations jy.2 n).Nonempty)))
          = false := by
        rcases hb : gl.enum.any (fun jy => decide (ix.1 < jy.1) &&
          decide ((equivBitPermutations ix.2 n ∩ equivBitPermutations jy.2 n).Nonempty)) with
          - | -
        · rfl
        · rw [hb] at hpred
          exact absurd hpred (by simp)
      have hall := List.any_eq_false.mp hany (j, y)
        (List.mk_mem_enum_iff_getElem?.mpr hj)
      apply hall
      rw [decide_eq_true hij, decide_eq_true hne]
      rfl
  · rintro ⟨i, hi, hforall⟩
    refine ⟨(i, x), List.mem_filter.mpr ⟨List.mk_mem_enum_iff_getElem?.mpr hi, ?_⟩, rfl⟩
    have hany : (gl.enum.any (fun jy => decide ((i, x).1 < jy.1) &&
        decide ((equivBitPermutations (i, x).2 n ∩ equivBitPermutations jy.2 n).Nonempty)))
        = false := by
      apply List.any_eq_false.mpr
      rintro ⟨j, y⟩ hjy
      have hj := List.mk_mem_enum_iff_getElem?.mp hjy
      rcases Nat.lt_or_ge i j with hij | hij
      · have h2 : decide ((equivBitPermutations (i, x).2 n
            ∩ equivBitPermutations (j, y).2 n).Nonempty) = false :=
          decide_eq_false (hforall j y hj hij)
        rw [h2]
        simp
      · rw [decide_eq_false (by omega : ¬ (i, x).1 < (j, y).1)]
        simp
    rw [hany]
    rfl

theorem mem_edgesToNetsUperm {edges : List (ℕ × ℕ)} {n : ℕ} {x : List ℕ} :
    x ∈ edgesToNetsUperm edges n ↔
      ∃ i : ℕ, (permsList (edgesToNet edges))[i]? = some x ∧
        ∀ (j : ℕ) (y : List ℕ), (permsList (edgesToNet edges))[j]? = some y → i < j →
          ¬ (equivBitPermutations x n ∩ equivBitPermutations y n).Nonempty := by
  unfold edgesToNetsUperm
  exact mem_survivors

theorem edgesToNetsUperm_perm {edges : List (ℕ × ℕ)} {n : ℕ} {x : List ℕ}
    (hx : x ∈ edgesToNetsUperm edges n) : x.Perm (edgesToNet edges) := by
  obtain ⟨i, hi, -⟩ := mem_edgesToNetsUperm.mp hx
  exact mem_permsList.mp (List.getElem?_mem hi)

theorem edgesToNetsUperm_disjoint {edges : List (ℕ × ℕ)} {n : ℕ} {a b : List ℕ}
    (hA : a ∈ edgesToNetsUperm edges n) (hB : b ∈ edgesToNetsUperm edges n)
    (hab : a ≠ b) :
    ¬ (equivBitPermutations a n ∩ equivBitPermutations b n).Nonempty := by
  obtain ⟨i, hi, hfa⟩ := mem_edgesToNetsUperm.mp hA
  obtain ⟨j, hj, hfb⟩ := mem_edgesToNetsUperm.mp hB
  have hij : i ≠ j := by
    rintro rfl
    rw [hi] at hj
    exact hab (Option.some.inj hj)
  rcases Nat.lt_or_ge i j with h | h
  · exact hfa j b hj h
  · intro hne
    apply hfb i a hi (by omega)
    rwa [Finset.inter_comm]

/-! ### Distinct survivors of one graph are inequivalent -/

theorem validNet_edgesToNet {edges : List (ℕ × ℕ)} {n : ℕ}
    (hedges : ∀ e ∈ edges, e.1 < e.2 ∧ e.2 < n) : ValidNet n (edgesToNet edges) := by
  intro g hg
  obtain ⟨e, he, rfl⟩ := List.mem_map.mp hg
  exact ⟨e.1, e.2, (hedges e he).1, (hedges e he).2, rfl⟩

theorem validNet_of_perm {n : ℕ} {a b : List ℕ} (h : a.Perm b) (hb : ValidNet n b) :
    ValidNet n a := fun g hg => hb g (h.subset hg)

theorem map_shuffle_comp {p q : List ℕ} {n : ℕ} (hp : p.Perm (List.range n))
    (hq : q.Perm (List.range n)) (net : List ℕ) :
    (net.map (fun g => shuffle g p)).map (fun g => shuffle g q)
      = net.map (fun g => shuffle g (q.map (fun j => p.getD j 0))) := by
  rw [List.map_map]
  apply List.map_congr_left
  intro g hg
  show shuffle (shuffle g p) q = _
  exact shuffle_shuffle hp hq g

theorem shuffle_gate_two {q : List ℕ} (hq : q.Perm (List.range 2)) :
    shuffle 3 q = 3 := by
  have h01 : (0 : ℕ) ≠ 1 := by omega
  have hg : shuffle (2 ^ 0 + 2 ^ 1) q = 2 ^ q.indexOf 0 + 2 ^ q.indexOf 1 :=
    shuffle_gate hq (by omega) (by omega) h01
  have hi0 : q.indexOf 0 < 2 := indexOf_lt_of_perm_range hq (by omega)
  have hi1 : q.indexOf 1 < 2 := indexOf_lt_of_perm_range hq (by omega)
  have hne : q.indexOf 0 ≠ q.indexOf 1 := by
    intro hcon
    apply h01
    rw [← getD_indexOf (perm_range_mem hq (by omega : (0 : ℕ) < 2)),
      ← getD_indexOf (perm_range_mem hq (by omega : (1 : ℕ) < 2)), hcon]
  have h3 : (3 : ℕ) = 2 ^ 0 + 2 ^ 1 := by norm_num
  rw [h3, hg]
  rcases Nat.lt_or_ge (q.indexOf 0) 1 with h0 | h0
  · have e0 : q.indexOf 0 = 0 := by omega
    have e1 : q.indexOf 1 = 1 := by omega
    rw [e0, e1]
  · have e0 : q.indexOf 0 = 1 := by omega
    have e1 : q.indexOf 1 = 0 := by omega
    rw [e0, e1, Nat.add_comm]

theorem survivors_not_equiv {edges : List (ℕ × ℕ)} {n : ℕ} {a b : List ℕ}
    (hedges : ∀ e ∈ edges, e.1 < e.2 ∧ e.2 < n) (hn : 2 ≤ n)
    (hA : a ∈ edgesToNetsUperm edges n) (hB : b ∈ edgesToNetsUperm edges n)
    (hab : a ≠ b) : ¬ isomorphicWithOrdering n a b := by
  intro hiso
  have hpa : a.Perm (edgesToNet edges) := edgesToNetsUperm_perm hA
  have hpb : b.Perm (edgesToNet edges) := edgesToNetsUperm_perm hB
  have hva : ValidNet n a := validNet_of_perm hpa (validNet_edgesToNet hedges)
  have hvb : ValidNet n b := validNet_of_perm hpb (validNet_edgesToNet hedges)
  obtain ⟨q, hq, hbeq⟩ := (isomorphicWithOrdering_iff_orbit hva hvb).mp hiso
  rcases Nat.lt_or_ge n 3 with hn2 | hn3
  · -- n = 2: every valid gate is 3, so the image equals a
    have h2 : n = 2 := by omega
    subst h2
    apply hab
    rw [hbeq]
    have : ∀ g ∈ a, shuffle g q = g := by
      intro g hg
      obtain ⟨u, v, huv, hvn, rfl⟩ := hva g hg
      have hu0 : u = 0 := by omega
      have hv1 : v = 1 := by omega
      subst hu0; subst hv1
      have h3 : (2 : ℕ) ^ 0 + 2 ^ 1 = 3 := by norm_num
      rw [h3, shuffle_gate_two hq]
    rw [(List.map_congr_left this).trans (List.map_id a)]
  · -- n ≥ 3: exhibit a common member of the two pruned orbits
    rcases a with - | ⟨g0, rest⟩
    · apply hab
      rw [hbeq]
      rfl
    obtain ⟨x, y, hxy, hyn, hg0⟩ := hva g0 (by simp)
    have hxn : x < n := by omega
    have hr : ∃ r, r < n ∧ r ≠ x ∧ r ≠ y := by
      rcases Decidable.em (x ≠ 0 ∧ y ≠ 0) with h0 | h0
      · exact ⟨0, by omega, by omega, by omega⟩
      · rcases Decidable.em (x ≠ 1 ∧ y ≠ 1) with h1 | h1
        · exact ⟨1, by omega, by omega, by omega⟩
        · exact ⟨2, by omega, by omega, by omega⟩
    obtain ⟨r, hrn, hrx, hry⟩ := hr
    have hs1 : (swapList n x r).Perm (List.range n) := swapList_perm hxn hrn
    have hs2 : (swapList n y r).Perm (List.range n) := swapList_perm hyn hrn
    have hhead1 : shuffle g0 (swapList n x r) = 2 ^ r + 2 ^ y := by
      rw [hg0, shuffle_gate hs1 hxn hyn (by omega),
        indexOf_swapList_left hxn hrn (by omega),
        indexOf_swapList_fix hxn hrn hyn (by omega) (by omega)]
    have hhead2 : shuffle g0 (swapList n y r) = 2 ^ x + 2 ^ r := by
      rw [hg0, shuffle_gate hs2 hxn hyn (by omega),
        indexOf_swapList_fix hyn hrn hxn (by omega) (by omega),
        indexOf_swapList_left hyn hrn (by omega)]
    have hc1a : (g0 :: rest).map (fun g => shuffle g (swapList n x r)) ≠ g0 :: rest := by
      intro hcon
      rw [List.map_cons] at hcon
      have hh := (List.cons.injEq _ _ _ _ ▸ hcon).1
      rw [hhead1, hg0] at hh
      rcases two_pow_add_two_pow_inj (by omega) (by omega) hh with ⟨h1, -⟩ | ⟨h1, h2⟩
      · omega
      · omega
    have hc2a : (g0 :: rest).map (fun g => shuffle g (swapList n y r)) ≠ g0 :: rest := by
      intro hcon
      rw [List.map_cons] at hcon
      have hh := (List.cons.injEq _ _ _ _ ▸ hcon).1
      rw [hhead2, hg0] at hh
      rcases two_pow_add_two_pow_inj (by omega) (by omega) hh with ⟨-, h2⟩ | ⟨h1, h2⟩
      · omega
      · omega
    have hc1c2 : (g0 :: rest).map (fun g => shuffle g (swapList n x r))
        ≠ (g0 :: rest).map (fun g => shuffle g (swapList n y r)) := by
      intro hcon
      rw [List.map_cons, List.map_cons] at hcon
      have hh := (List.cons.injEq _ _ _ _ ▸ hcon).1
      rw [hhead1, hhead2] at hh
      rcases two_pow_add_two_pow_inj (by omega) (by omega) hh with ⟨h1, -⟩ | ⟨-, h2⟩
      · omega
      · omega
    -- a is recovered from b by the inverse permutation
    have hainv : (g0 :: rest) = b.map (fun g => shuffle g (invPerm q)) := by
      rw [hbeq, map_shuffle_invPerm hq hva]
    -- membership of an image in the pruned orbit of b
    have hmemEb : ∀ p1 : List ℕ, p1.Perm (List.range n) →
        (g0 :: rest).map (fun g => shuffle g p1) ≠ b →
        (g0 :: rest).map (fun g => shuffle g p1) ∈ equivBitPermutations b n := by
      intro p1 hp1 hneb
      apply mem_equivBitPermutations.mpr
      refine ⟨hneb, (p1.map (fun j => (invPerm q).getD j 0)), ?_, ?_⟩
      · exact comp_perm_range (invPerm_perm hq) hp1
      · rw [← map_shuffle_comp (invPerm_perm hq) hp1 b, ← hainv]
    have hmemEa : ∀ p1 : List ℕ, p1.Perm (List.range n) →
        (g0 :: rest).map (fun g => shuffle g p1) ≠ g0 :: rest →
        (g0 :: rest).map (fun g => shuffle g p1) ∈ equivBitPermutations (g0 :: rest) n :=
      fun p1 hp1 hnea => mem_equivBitPermutations.mpr ⟨hnea, p1, hp1, rfl⟩
    apply edgesToNetsUperm_disjoint hA hB hab
    by_cases hcb : (g0 :: rest).map (fun g => shuffle g (swapList n x r)) = b
    · refine ⟨(g0 :: rest).map (fun g => shuffle g (swapList n y r)),
        Finset.mem_inter.mpr ⟨hmemEa _ hs2 hc2a, hmemEb _ hs2 ?_⟩⟩
      rw [← hcb]
      exact fun hcon => hc1c2 hcon.symm
    · exact ⟨(g0 :: rest).map (fun g => shuffle g (swapList n x r)),
        Finset.mem_inter.mpr ⟨hmemEa _ hs1 hc1a, hmemEb _ hs1 hcb⟩⟩

/-! ### Unlabeled multigraph isomorphism: characterization, reflexivity,
symmetry -/

theorem mem_cphases {n : ℕ} {e : ℕ × ℕ} : e ∈ cphases n ↔ e.1 < e.2 ∧ e.2 < n := by
  unfold cphases
  rw [List.mem_flatMap]
  constructor
  · rintro ⟨i, hi, hmem⟩
    obtain ⟨j, hj, rfl⟩ := List.mem_map.mp hmem
    obtain ⟨hjn, hij⟩ := List.mem_filter.mp hj
    rw [List.mem_range] at hjn
    exact ⟨by simpa using hij, hjn⟩
  · rintro ⟨h1, h2⟩
    refine ⟨e.1, by rw [List.mem_range]; omega, List.mem_map.mpr ⟨e.2, ?_, rfl⟩⟩
    rw [List.mem_filter, List.mem_range]
    exact ⟨h2, by simpa using h1⟩

theorem edgeCount_symm (G : List (ℕ × ℕ)) (u v : ℕ) :
    edgeCount G u v = edgeCount G v u := by
  unfold edgeCount
  apply List.countP_congr
  intro e he
  simp only [decide_eq_true_eq]
  tauto

theorem edgeCount_eq_zero {n : ℕ} {G : List (ℕ × ℕ)} (hG : ValidGraph n G) {u v : ℕ}
    (h : n ≤ u ∨ n ≤ v ∨ u = v) : edgeCount G u v = 0 := by
  unfold edgeCount
  rw [List.countP_eq_zero]
  intro e he
  have := hG e he
  simp only [decide_eq_true_eq]
  rintro (⟨h1, h2⟩ | ⟨h1, h2⟩) <;> omega

theorem isoUnlabeled_true_iff {n : ℕ} {G H : List (ℕ × ℕ)} (hG : ValidGraph n G)
    (hH : ValidGraph n H) :
    isoUnlabeled n G H = true ↔
      ∃ p : List ℕ, p.Perm (List.range n) ∧ ∀ u < n, ∀ v < n,
        edgeCount G u v = edgeCount H (p.getD u 0) (p.getD v 0) := by
  unfold isoUnlabeled
  rw [List.any_eq_true]
  constructor
  · rintro ⟨p, hpmem, hall⟩
    have hp := mem_permsList.mp hpmem
    refine ⟨p, hp, ?_⟩
    intro u hu v hv
    rcases lt_trichotomy u v with huv | huv | huv
    · have := List.all_eq_true.mp hall (u, v) (mem_cphases.mpr ⟨huv, hv⟩)
      simpa using this
    · subst huv
      rw [edgeCount_eq_zero hG (by omega), edgeCount_eq_zero hH (by omega)]
    · have := List.all_eq_true.mp hall (v, u) (mem_cphases.mpr ⟨huv, hu⟩)
      rw [edgeCount_symm G, edgeCount_symm H]
      simpa using this
  · rintro ⟨p, hp, h⟩
    refine ⟨p, mem_permsList.mpr hp, List.all_eq_true.mpr ?_⟩
    rintro ⟨u, v⟩ he
    obtain ⟨huv, hv⟩ := mem_cphases.mp he
    simpa using h u (by omega) v hv

theorem isoUnlabeled_refl {n : ℕ} (G : List (ℕ × ℕ)) : isoUnlabeled n G G = true := by
  unfold isoUnlabeled
  rw [List.any_eq_true]
  refine ⟨List.range n, mem_permsList.mpr (List.Perm.refl _), List.all_eq_true.mpr ?_⟩
  rintro ⟨u, v⟩ he
  obtain ⟨huv, hv⟩ := mem_cphases.mp he
  rw [getD_range (by omega : u < n), getD_range hv]
  simp

theorem isoUnlabeled_symm {n : ℕ} {G H : List (ℕ × ℕ)} (hG : ValidGraph n G)
    (hH : ValidGraph n H) (h : isoUnlabeled n G H = true) :
    isoUnlabeled n H G = true := by
  obtain ⟨p, hp, hcount⟩ := (isoUnlabeled_true_iff hG hH).mp h
  apply (isoUnlabeled_true_iff hH hG).mpr
  refine ⟨invPerm p, invPerm_perm hp, ?_⟩
  intro u hu v hv
  have h1 := hcount ((invPerm p).getD u 0) (perm_range_getD_lt (invPerm_perm hp) hu)
    ((invPerm p).getD v 0) (perm_range_getD_lt (invPerm_perm hp) hv)
  rw [getD_getD_invPerm hp hu, getD_getD_invPerm hp hv] at h1
  exact h1.symm

/-! ### Invariants of the greedy graph enumeration -/

theorem addCandidates_cons (n : ℕ) (G_old : List (ℕ × ℕ)) (cph : ℕ × ℕ)
    (rest : List (ℕ × ℕ)) (acc : List (List (ℕ × ℕ))) :
    addCandidates n G_old (cph :: rest) acc =
      if moreThreeMultiedges (G_old ++ [cph]) = false ∧
          isIsomorphicToAny n (G_old ++ [cph]) acc = false then
        addCandidates n G_old rest (acc ++ [G_old ++ [cph]])
      else addCandidates n G_old rest acc := rfl

theorem stepGraphs_cons (n : ℕ) (g : List (ℕ × ℕ)) (rest : List (List (ℕ × ℕ)))
    (acc : List (List (ℕ × ℕ))) :
    stepGraphs n (g :: rest) acc = stepGraphs n rest (addCandidates n g (cphases n) acc) :=
  rfl

theorem iterGraphs_succ (n : ℕ) (init : List (List (ℕ × ℕ))) (k : ℕ) :
    iterGraphs n init (k + 1) = stepGraphs n (iterGraphs n init k) [] := rfl

theorem addCandidates_inv {n : ℕ} {G_old : List (ℕ × ℕ)} (hvold : ValidGraph n G_old) :
    ∀ (cs : List (ℕ × ℕ)) (acc : List (List (ℕ × ℕ))),
      (∀ cp ∈ cs, cp.1 < cp.2 ∧ cp.2 < n) →
      (∀ G ∈ acc, ValidGraph n G ∧ moreThreeMultiedges G = false) →
      List.Pairwise (fun G H => isoUnlabeled n G H = false ∧ isoUnlabeled n H G = false) acc →
      (∀ G ∈ addCandidates n G_old cs acc,
        ValidGraph n G ∧ moreThreeMultiedges G = false) ∧
      List.Pairwise (fun G H => isoUnlabeled n G H = false ∧ isoUnlabeled n H G = false)
        (addCandidates n G_old cs acc) := by
  intro cs
  induction cs with
  | nil =>
    intro acc hcs hgood hpw
    exact ⟨hgood, hpw⟩
  | cons cph rest ih =>
    intro acc hcs hgood hpw
    rw [addCandidates_cons]
    by_cases hcond : moreThreeMultiedges (G_old ++ [cph]) = false ∧
        isIsomorphicToAny n (G_old ++ [cph]) acc = false
    · rw [if_pos hcond]
      have hvcand : ValidGraph n (G_old ++ [cph]) := by
        intro e he
        rcases List.mem_append.mp he with h1 | h1
        · exact hvold e h1
        · rw [List.mem_singleton] at h1
          rw [h1]
          exact hcs cph (by simp)
      apply ih
      · intro c hc
        exact hcs c (by simp [hc])
      · intro G hG
        rcases List.mem_append.mp hG with h1 | h1
        · exact hgood G h1
        · rw [List.mem_singleton] at h1
          subst h1
          exact ⟨hvcand, hcond.1⟩
      · rw [List.pairwise_append]
        refine ⟨hpw, List.pairwise_singleton _ _, ?_⟩
        intro G hG H hH
        rw [List.mem_singleton] at hH
        subst hH
        have hfwd : isoUnlabeled n G (G_old ++ [cph]) = false := by
          have := hcond.2
          unfold isIsomorphicToAny at this
          simpa using List.any_eq_false.mp this G hG
        refine ⟨hfwd, ?_⟩
        rcases hb : isoUnlabeled n (G_old ++ [cph]) G with - | -
        · rfl
        · have := isoUnlabeled_symm hvcand (hgood G hG).1 hb
          rw [hfwd] at this
          exact absurd this (by simp)
    · rw [if_neg hcond]
      apply ih _ (fun c hc => hcs c (by simp [hc])) hgood hpw

theorem stepGraphs_inv {n : ℕ} :
    ∀ (prev acc : List (List (ℕ × ℕ))),
      (∀ G ∈ prev, ValidGraph n G) →
      (∀ G ∈ acc, ValidGraph n G ∧ moreThreeMultiedges G = false) →
      List.Pairwise (fun G H => isoUnlabeled n G H = false ∧ isoUnlabeled n H G = false) acc →
      (∀ G ∈ stepGraphs n prev acc,
        ValidGraph n G ∧ moreThreeMultiedges G = false) ∧
      List.Pairwise (fun G H => isoUnlabeled n G H = false ∧ isoUnlabeled n H G = false)
        (stepGraphs n prev acc) := by
  intro prev
  induction prev with
  | nil =>
    intro acc hprev hgood hpw
    exact ⟨hgood, hpw⟩
  | cons g rest ih =>
    intro acc hprev hgood hpw
    rw [stepGraphs_cons]
    obtain ⟨hgood2, hpw2⟩ := addCandidates_inv (hprev g (by simp)) (cphases n) acc
      (fun cp hcp => mem_cphases.mp hcp) hgood hpw
    exact ih _ (fun G hG => hprev G (by simp [hG])) hgood2 hpw2

theorem iterGraphs_inv {n : ℕ} {c0 : ℕ × ℕ} (hc0 : c0 ∈ cphases n) :
    ∀ k, (∀ G ∈ iterGraphs n [[c0]] k,
        ValidGraph n G ∧ moreThreeMultiedges G = false) ∧
      List.Pairwise (fun G H => isoUnlabeled n G H = false ∧ isoUnlabeled n H G = false)
        (iterGraphs n [[c0]] k) := by
  intro k
  induction k with
  | zero =>
    constructor
    · intro G hG
      rw [show iterGraphs n [[c0]] 0 = [[c0]] from rfl, List.mem_singleton] at hG
      subst hG
      constructor
      · intro e he
        rw [List.mem_singleton] at he
        subst he
        exact mem_cphases.mp hc0
      · unfold moreThreeMultiedges
        apply List.any_eq_false.mpr
        intro e he
        rw [List.mem_singleton] at he
        subst he
        simp
    · exact List.pairwise_singleton _ _
  | succ k ih =>
    rw [iterGraphs_succ]
    exact stepGraphs_inv (iterGraphs n [[c0]] k) []
      (fun G hG => (ih.1 G hG).1) (by simp) (by simp)

theorem lnig_spec {n d : ℕ} {LNIG : List (List (ℕ × ℕ))}
    (h : listNonIsoGraphs n d = .ok LNIG) :
    (∀ G ∈ LNIG, ValidGraph n G ∧ moreThreeMultiedges G = false) ∧
      List.Pairwise (fun G H => isoUnlabeled n G H = false ∧ isoUnlabeled n H G = false)
        LNIG := by
  unfold listNonIsoGraphs at h
  split at h
  next heq => exact absurd h (by simp)
  next c0 crest heq =>
    split at h
    next hd => exact absurd h (by simp)
    next hd =>
      have hLN : LNIG = iterGraphs n [[c0]] (d - 1) := (Except.ok.inj h).symm
      rw [hLN]
      exact iterGraphs_inv (by rw [heq]; simp) (d - 1)

/-! ### Gate counts vs edge counts -/

theorem count_edgesToNet {G : List (ℕ × ℕ)} (hG : ∀ e ∈ G, e.1 < e.2) {u v : ℕ}
    (huv : u ≠ v) :
    (edgesToNet G).count (2 ^ u + 2 ^ v) = edgeCount G u v := by
  unfold edgesToNet edgeCount
  rw [List.count_eq_countP, List.countP_map]
  apply List.countP_congr
  intro e he
  have hord := hG e he
  show (2 ^ e.1 + 2 ^ e.2 == 2 ^ u + 2 ^ v) = true ↔ _
  rw [beq_iff_eq]
  simp only [decide_eq_true_eq]
  constructor
  · intro hh
    rcases two_pow_add_two_pow_inj (by omega) huv hh with ⟨h1, h2⟩ | ⟨h1, h2⟩
    · exact Or.inl ⟨h1, h2⟩
    · exact Or.inr ⟨h1, h2⟩
  · rintro (⟨rfl, rfl⟩ | ⟨rfl, rfl⟩)
    · rfl
    · exact Nat.add_comm _ _

theorem count_map_shuffle {n : ℕ} {a : List ℕ} {q : List ℕ} (hq : q.Perm (List.range n))
    (ha : ValidNet n a) {u v : ℕ} (hu : u < n) (hv : v < n) (huv : u ≠ v) :
    (a.map (fun g => shuffle g q)).count (2 ^ q.indexOf u + 2 ^ q.indexOf v)
      = a.count (2 ^ u + 2 ^ v) := by
  rw [List.count_eq_countP, List.count_eq_countP, List.countP_map]
  apply List.countP_congr
  intro g hg
  obtain ⟨x, y, hxy, hyn, rfl⟩ := ha g hg
  have hxn : x < n := by omega
  show (shuffle (2 ^ x + 2 ^ y) q == 2 ^ q.indexOf u + 2 ^ q.indexOf v) = true ↔
    (2 ^ x + 2 ^ y == 2 ^ u + 2 ^ v) = true
  rw [beq_iff_eq, beq_iff_eq, shuffle_gate hq hxn hyn (by omega)]
  have hnexy : q.indexOf x ≠ q.indexOf y := by
    intro hcon
    apply (by omega : x ≠ y)
    rw [← getD_indexOf (perm_range_mem hq hxn), ← getD_indexOf (perm_range_mem hq hyn), hcon]
  have hneuv : q.indexOf u ≠ q.indexOf v := by
    intro hcon
    apply huv
    rw [← getD_indexOf (perm_range_mem hq hu), ← getD_indexOf (perm_range_mem hq hv), hcon]
  constructor
  · intro hh
    rcases two_pow_add_two_pow_inj hnexy hneuv hh with ⟨h1, h2⟩ | ⟨h1, h2⟩
    · have hxu : x = u := by
        rw [← getD_indexOf (perm_range_mem hq hxn), h1, getD_indexOf (perm_range_mem hq hu)]
      have hyv : y = v := by
        rw [← getD_indexOf (perm_range_mem hq hyn), h2, getD_indexOf (perm_range_mem hq hv)]
      rw [hxu, hyv]
    · have hxv : x = v := by
        rw [← getD_indexOf (perm_range_mem hq hxn), h1, getD_indexOf (perm_range_mem hq hv)]
      have hyu : y = u := by
        rw [← getD_indexOf (perm_range_mem hq hyn), h2, getD_indexOf (perm_range_mem hq hu)]
      rw [hxv, hyu, Nat.add_comm]
  · intro hh
    rcases two_pow_add_two_pow_inj (by omega) huv hh with ⟨rfl, rfl⟩ | ⟨rfl, rfl⟩
    · rfl
    · rw [Nat.add_comm]

/-! ### Orderings of non-isomorphic graphs are inequivalent -/

theorem cross_graph_not_equiv {n : ℕ} {Gi Gj : List (ℕ × ℕ)} {a b : List ℕ}
    (hvGi : ValidGraph n Gi) (hvGj : ValidGraph n Gj)
    (hiso_false : isoUnlabeled n Gi Gj = false)
    (hpa : a.Perm (edgesToNet Gi)) (hpb : b.Perm (edgesToNet Gj)) :
    ¬ isomorphicWithOrdering n a b := by
  intro hiso
  have hva : ValidNet n a := validNet_of_perm hpa (validNet_edgesToNet hvGi)
  have hvb : ValidNet n b := validNet_of_perm hpb (validNet_edgesToNet hvGj)
  obtain ⟨q, hq, hbeq⟩ := (isomorphicWithOrdering_iff_orbit hva hvb).mp hiso
  have htrue : isoUnlabeled n Gi Gj = true := by
    apply (isoUnlabeled_true_iff hvGi hvGj).mpr
    refine ⟨invPerm q, invPerm_perm hq, ?_⟩
    intro u hu v hv
    rcases Decidable.em (u = v) with rfl | huv
    · rw [edgeCount_eq_zero hvGi (by omega), edgeCount_eq_zero hvGj (by omega)]
    · have hneuv : q.indexOf u ≠ q.indexOf v := by
        intro hcon
        apply huv
        rw [← getD_indexOf (perm_range_mem hq hu), ← getD_indexOf (perm_range_mem hq hv),
          hcon]
      rw [invPerm_getD hq hu, invPerm_getD hq hv]
      calc edgeCount Gi u v
          = (edgesToNet Gi).count (2 ^ u + 2 ^ v) :=
            (count_edgesToNet (fun e he => (hvGi e he).1) huv).symm
        _ = a.count (2 ^ u + 2 ^ v) := (hpa.count_eq _).symm
        _ = (a.map (fun g => shuffle g q)).count
              (2 ^ q.indexOf u + 2 ^ q.indexOf v) :=
            (count_map_shuffle hq hva hu hv huv).symm
        _ = b.count (2 ^ q.indexOf u + 2 ^ q.indexOf v) := by rw [← hbeq]
        _ = (edgesToNet Gj).count (2 ^ q.indexOf u + 2 ^ q.indexOf v) := hpb.count_eq _
        _ = edgeCount Gj (q.indexOf u) (q.indexOf v) :=
            count_edgesToNet (fun e he => (hvGj e he).1) hneuv
  rw [hiso_false] at htrue
  exact absurd htrue (by simp)

/-! ### Decomposing the `unique2net` output -/

theorem mem_filter_enum_map_snd {α : Type} {l : List α} {P : ℕ × α → Bool} {x : α}
    (hx : x ∈ (l.enum.filter P).map Prod.snd) : x ∈ l := by
  obtain ⟨ix, hmem, heq⟩ := List.mem_map.mp hx
  rcases ix with ⟨i, y⟩
  have h2 := List.mk_mem_enum_iff_getElem?.mp (List.mem_filter.mp hmem).1
  rw [← heq]
  exact List.getElem?_mem h2

theorem unique2net_ok_elim {n d : ℕ} {out : List (List ℕ)}
    (h : unique2netModel n d = Except.ok out) :
    ∃ LNIG, listNonIsoGraphs n d = Except.ok LNIG ∧
      ∀ x ∈ out, ∃ G ∈ LNIG, x ∈ edgesToNetsUperm G n := by
  unfold unique2netModel at h
  split at h
  next e heq => exact absurd h (by simp)
  next LNIG heq =>
    refine ⟨LNIG, heq, ?_⟩
    intro x hx
    have hout := (Except.ok.inj h).symm
    rw [hout] at hx
    have hx2 : x ∈ LNIG.flatMap (fun G => edgesToNetsUperm G n) :=
      mem_filter_enum_map_snd hx
    exact List.mem_flatMap.mp hx2

/-! ### C5: every returned network passes the run validator -/

/-- C5: for valid parameters, every network in the canonical list returned
by `unique2net` has no run of more than 3 consecutive identical gates — the
run validator returns false on every member.  (Each member reorders the edge
list of a graph that the enumeration kept only after checking
`__more_three_multiedges`, so no gate value occurs more than 3 times at
all.) -/
theorem claimC5 (n d : ℕ) (hn : 2 ≤ n) (hd : 1 ≤ d) (out : List (List ℕ))
    (hout : unique2netModel n d = Except.ok out) :
    ∀ net ∈ out, iseqivOccurrence net = false := by
  intro net hnet
  obtain ⟨LNIG, hLN, hmem⟩ := unique2net_ok_elim hout
  obtain ⟨G, hG, hx⟩ := hmem net hnet
  obtain ⟨hgood, -⟩ := lnig_spec hLN
  obtain ⟨hvG, hm3⟩ := hgood G hG
  have hperm : net.Perm (edgesToNet G) := edgesToNetsUperm_perm hx
  rcases net with - | ⟨g0, rest⟩
  · rfl
  · rcases hb : iseqivOccurrence (g0 :: rest) with - | -
    · rfl
    · exfalso
      have h2 : occAux g0 0 (g0 :: rest) = true := hb
      have hrun : ∃ g, List.replicate 4 g <:+: g0 :: rest := by
        rcases (occAux_iff_run (g0 :: rest) g0 0 (by omega)).mp h2 with ⟨hc, -⟩ | h3
        · omega
        · exact h3
      obtain ⟨g, hinf⟩ := hrun
      have hcount : 4 ≤ (g0 :: rest).count g := by
        have hsub := hinf.sublist.count_le g
        rwa [List.count_replicate_self] at hsub
      have hcount2 : 4 ≤ (edgesToNet G).count g := by
        rw [← hperm.count_eq g]
        exact hcount
      have hgmem : g ∈ edgesToNet G := by
        by_contra hcon
        rw [List.count_eq_zero.mpr hcon] at hcount2
        omega
      obtain ⟨e, he, rfl⟩ := List.mem_map.mp hgmem
      have hEcount : 4 ≤ edgeCount G e.1 e.2 := by
        rw [← count_edgesToNet (fun e2 he2 => (hvG e2 he2).1)
          (by have := (hvG e he).1; omega)]
        exact hcount2
      have hEC : edgeCount G e.1 e.2 = G.count e := by
        unfold edgeCount
        rw [List.count_eq_countP]
        apply List.countP_congr
        intro e2 he2
        have h1 := (hvG e2 he2).1
        have hord := (hvG e he).1
        simp only [decide_eq_true_eq, beq_iff_eq]
        constructor
        · rintro (⟨ha1, ha2⟩ | ⟨ha1, ha2⟩)
          · exact Prod.ext ha1 ha2
          · exfalso
            omega
        · rintro rfl
          exact Or.inl ⟨rfl, rfl⟩
      have hm3' : moreThreeMultiedges G = true := by
        unfold moreThreeMultiedges
        rw [List.any_eq_true]
        exact ⟨e, he, decide_eq_true (by omega)⟩
      rw [hm3] at hm3'
      exact absurd hm3' (by simp)

/-- C5 witness: the theorem applied to the concrete run `unique2net(2, 2)`,
whose output is the list `[(3,3), (3,3)]`. -/
theorem claimC5_witness : iseqivOccurrence [3, 3] = false :=
  claimC5 2 2 (by norm_num) (by norm_num) [[3, 3], [3, 3]] (by decide) [3, 3] (by decide)

/-! ### C2: non-redundancy of the returned canonical set -/

/-- C2: for valid parameters, no two distinct networks in the canonical list
returned by `unique2net` are isomorphic-with-ordering (the spec's
`is_equivalent`): orderings of the same accepted graph are pruned modulo the
full bit-permutation orbit, orderings of different accepted graphs are not
even isomorphic as unlabeled multigraphs. -/
theorem claimC2 (n d : ℕ) (hn : 2 ≤ n) (hd : 1 ≤ d) (out : List (List ℕ))
    (hout : unique2netModel n d = Except.ok out) :
    ∀ a ∈ out, ∀ b ∈ out, a ≠ b → ¬ isomorphicWithOrdering n a b := by
  intro a ha b hb hab
  obtain ⟨LNIG, hLN, hmem⟩ := unique2net_ok_elim hout
  obtain ⟨Gi, hGi, hxa⟩ := hmem a ha
  obtain ⟨Gj, hGj, hxb⟩ := hmem b hb
  obtain ⟨hgood, hpw⟩ := lnig_spec hLN
  by_cases hG : Gi = Gj
  · subst hG
    exact survivors_not_equiv (fun e he => (hgood Gi hGi).1 e he) hn hxa hxb hab
  · have hsym : Symmetric (fun G H : List (ℕ × ℕ) =>
        isoUnlabeled n G H = false ∧ isoUnlabeled n H G = false) :=
      fun G H hR => ⟨hR.2, hR.1⟩
    have hR := hpw.forall hsym hGi hGj hG
    exact cross_graph_not_equiv (hgood Gi hGi).1 (hgood Gj hGj).1 hR.1
      (edgesToNetsUperm_perm hxa) (edgesToNetsUperm_perm hxb)

/-- C2 witness: the theorem applied to the concrete run `unique2net(3, 2)`,
whose output is `[(3,3), (5,3)]`; its two distinct members are not
isomorphic-with-ordering. -/
theorem claimC2_witness : ¬ isomorphicWithOrdering 3 [3, 3] [5, 3] :=
  claimC2 3 2 (by norm_num) (by norm_num) [[3, 3], [5, 3]] (by decide)
    [3, 3] (by decide) [5, 3] (by decide) (by decide)
